import Mathlib

/-!
Verification development for the clinstruct / clinote note-structuring core.

The Rust sources are embedded shallowly:
* Rust `String` / `&str` values are modelled as `Str := List Char`; a Lean
  string literal `s` is converted with `str s`.
* Rust iterator pipelines become structural recursions on lists.
* The regular expressions used by the heading detector, the fallback
  sectionizer heuristic and the bundle date heuristic are modelled as
  executable matching functions that reproduce the (leftmost, greedy with
  backtracking) semantics of the `regex` crate on the concrete patterns.
* `f32` confidence scores are modelled as `ℚ`; the program only ever stores
  the literal constants 0.4, 0.6 and 0.85 in them.
* The impure timestamp `util::now_iso()` is threaded as an explicit `now`
  argument into `build_note` / `parse_note` / `parse_notes`.
-/

abbrev Str := List Char

def str (s : String) : Str := s.data

/-- Model of Rust `char::is_whitespace` (the Unicode `White_Space` property:
U+0009–U+000D, U+0020, U+0085, U+00A0, U+1680, U+2000–U+200A, U+2028, U+2029,
U+202F, U+205F, U+3000). -/
def isRustWs (c : Char) : Bool :=
  c = ' ' || ('\t' ≤ c && c ≤ '\x0D') || c = '\u0085' || c = ' ' ||
  c = ' ' || (0x2000 ≤ c.toNat && c.toNat ≤ 0x200A) ||
  c = ' ' || c = ' ' || c = ' ' || c = ' ' || c = '　'

/-- Rust `str::trim_start`. -/
def trimStart (s : Str) : Str := s.dropWhile isRustWs

/-- Rust `str::trim_end`: remove the longest all-whitespace suffix. -/
def trimEnd : Str → Str
  | [] => []
  | c :: rest =>
    match trimEnd rest with
    | [] => if isRustWs c then [] else [c]
    | r => c :: r

/-- Rust `str::trim`. -/
def trim (s : Str) : Str := trimEnd (trimStart s)

/-- `pat` occurs as a contiguous segment of `s` (Rust: `s.contains(pat)`). -/
def hasSeg (pat s : Str) : Prop := ∃ a b, s = a ++ pat ++ b

/-- Rust `.replace("\r\n", "\n")`: specialised to its concrete pattern;
replaces occurrences left to right, non-overlapping. -/
def replaceCrLf : Str → Str
  | [] => []
  | [c] => [c]
  | c :: d :: rest =>
    if c = '\r' ∧ d = '\n' then '\n' :: replaceCrLf rest
    else c :: replaceCrLf (d :: rest)

/-- Rust `.replace("* ", "- ")`: specialised to its concrete pattern;
replaces occurrences left to right, non-overlapping. -/
def replaceStarSpace : Str → Str
  | [] => []
  | [c] => [c]
  | c :: d :: rest =>
    if c = '*' ∧ d = ' ' then '-' :: ' ' :: replaceStarSpace rest
    else c :: replaceStarSpace (d :: rest)

/-- Rust `str::replace` with a `char` pattern and a single-character
replacement string. -/
def replaceChar (c d : Char) (s : Str) : Str :=
  s.map (fun x => if x = c then d else x)

/-- Split at every `\n`; always returns one more piece than there are
newlines (so a trailing newline yields a final empty piece). -/
def splitNl : Str → List Str
  | [] => [[]]
  | c :: rest =>
    match splitNl rest with
    | [] => [[c]]
    | p :: ps => if c = '\n' then [] :: p :: ps else (c :: p) :: ps

/-- Helper for `rlines`: strip one trailing `\r` from a `\n`-terminated line. -/
def stripCr (l : Str) : Str :=
  if l.getLast? = some '\r' then l.dropLast else l

/-- Rust `str::lines`: split at `\n`, strip a trailing `\r` from every
`\n`-terminated line, and do not produce a final empty line for a trailing
terminator.  A final segment with no terminator is kept verbatim. -/
def rlines (s : Str) : List Str :=
  let ps := splitNl s
  ps.dropLast.map stripCr ++
    (match ps.getLast? with
     | some l => if l.isEmpty then [] else [l]
     | none => [])

/-- `Vec<String>::join("\n")`. -/
def joinLines : List Str → Str
  | [] => []
  | [l] => l
  | l :: ls => l ++ '\n' :: joinLines ls

/-- `src/src/parser/normalize.rs`: the CRLF / CR / tab canonicalization that
`normalize_text` performs before splitting into lines. -/
def fixupText (input : Str) : Str :=
  replaceChar '\t' ' ' (replaceChar '\r' '\n' (replaceCrLf input))

/-- The per-line body of `normalize_text`'s loop: trim trailing whitespace,
replace the bullet glyph `•` by `-`, and replace every occurrence of `"* "`
by `"- "`. -/
def normLine (l : Str) : Str :=
  replaceStarSpace (replaceChar '•' '-' (trimEnd l))

/-- `src/src/parser/normalize.rs::normalize_text`. -/
def normalize_text (input : Str) : Str :=
  joinLines ((rlines (fixupText input)).map normLine)

/-- Rust `char::is_ascii_alphanumeric`. -/
def isAsciiAlphanum (c : Char) : Bool :=
  ('A' ≤ c && c ≤ 'Z') || ('a' ≤ c && c ≤ 'z') || ('0' ≤ c && c ≤ '9')

/-- Rust `char::to_ascii_uppercase`. -/
def toAsciiUpper (c : Char) : Char :=
  if 'a' ≤ c ∧ c ≤ 'z' then Char.ofNat (c.toNat - 32) else c

/-- The character loop of `normalize_heading_key`: keep upper-cased ASCII
alphanumerics, collapse whitespace runs to a single space, skip everything
else (without touching the `last_space` flag). -/
def collapseKey : List Char → Bool → Str
  | [], _ => []
  | c :: rest, lastSpace =>
    if isAsciiAlphanum c then
      toAsciiUpper c :: collapseKey rest false
    else if isRustWs c then
      if lastSpace then collapseKey rest true else ' ' :: collapseKey rest true
    else
      collapseKey rest lastSpace

/-- `src/src/util.rs::normalize_heading_key`. -/
def normalize_heading_key (input : Str) : Str :=
  let cleaned := ((trim input).reverse.dropWhile (fun c => c = ':')).reverse
  let cleaned := replaceChar '-' ' ' cleaned
  let cleaned := replaceChar '/' ' ' cleaned
  let cleaned := replaceChar '&' ' ' cleaned
  trim (collapseKey cleaned false)

/-! ## Data model (`src/clinote-main/src/models.rs`, `src/src/validate.rs`) -/

inductive NoteFormat where
  | soap | hp | discharge
deriving DecidableEq

inductive BundleMode where
  | auto | on | off
deriving DecidableEq

inductive WarningSeverity where
  | info | warning | error
deriving DecidableEq

inductive SectionName where
  | subjective | objective | assessment | plan
  | chiefComplaint | hpi | pmh | medications | allergies | ros | physicalExam
  | admissionDx | dischargeDx | hospitalCourse | followUp | disposition
  | instructions | narrative
deriving DecidableEq

/-- `SectionName::as_str`. -/
def SectionName.asStr : SectionName → Str
  | .subjective => str "Subjective"
  | .objective => str "Objective"
  | .assessment => str "Assessment"
  | .plan => str "Plan"
  | .chiefComplaint => str "Chief Complaint"
  | .hpi => str "HPI"
  | .pmh => str "PMH"
  | .medications => str "Medications"
  | .allergies => str "Allergies"
  | .ros => str "ROS"
  | .physicalExam => str "Physical Exam"
  | .admissionDx => str "Admission Dx"
  | .dischargeDx => str "Discharge Dx"
  | .hospitalCourse => str "Hospital Course"
  | .followUp => str "Follow-up"
  | .disposition => str "Disposition"
  | .instructions => str "Instructions"
  | .narrative => str "Narrative"

structure Section where
  name : Str
  content : Str
  confidence : ℚ
deriving DecidableEq

structure ParseWarning where
  code : Str
  message : Str
  line_start : Nat
  line_end : Nat
  severity : WarningSeverity
deriving DecidableEq

structure Metadata where
  generated_at : Str
  tool_version : Str
deriving DecidableEq

structure StructuredNote where
  id : Str
  format : NoteFormat
  source_file : Option Str
  note_index : Nat
  sections : List Section
  warnings : List ParseWarning
  metadata : Metadata
deriving DecidableEq

structure HeadingLine where
  line_num : Nat
  raw : Str
  heading : Str
  inline_content : Option Str
deriving DecidableEq

structure SectionCandidate where
  name : Str
  raw_heading : Str
  content : Str
  start_line : Nat
  end_line : Nat
  confidence : ℚ
deriving DecidableEq

/-- `src/clinote-main/src/parser/warnings.rs::warning`. -/
def mkWarning (code : Str) (message : Str) (line_start line_end : Nat)
    (severity : WarningSeverity) : ParseWarning :=
  ⟨code, message, line_start, line_end, severity⟩

/-! ## Configuration (`src/clinote-main/src/config.rs`) -/

structure FormatSpec where
  section_order : List SectionName
deriving DecidableEq

structure FormatsConfig where
  soap : FormatSpec
  hp : FormatSpec
  discharge : FormatSpec
deriving DecidableEq

structure BundleConfig where
  mode_default : BundleMode
  delimiters : List Str
deriving DecidableEq

inductive CsvLayout where
  | wide | long
deriving DecidableEq

/-- The user alias table `heading_aliases: HashMap<String, String>` is
modelled as an association list; `resolve_heading_alias` scans it with
`find_map`, so only the set of normalized keys matters to the claims below. -/
structure Config where
  formats : FormatsConfig
  heading_aliases : List (Str × Str)
  enable_fallback_heuristics : Bool
  bundle : BundleConfig
  csv : CsvLayout
  glob_default : Str
deriving DecidableEq

def FormatsConfig.default : FormatsConfig :=
  { soap := ⟨[.subjective, .objective, .assessment, .plan]⟩
    hp := ⟨[.chiefComplaint, .hpi, .pmh, .medications, .allergies, .ros,
            .physicalExam, .assessment, .plan]⟩
    discharge := ⟨[.admissionDx, .dischargeDx, .hospitalCourse, .medications,
                   .followUp, .disposition, .instructions]⟩ }

def BundleConfig.default : BundleConfig :=
  ⟨.auto, [str "----- NOTE -----", str "=== VISIT ==="]⟩

def Config.default : Config :=
  ⟨FormatsConfig.default, [], true, BundleConfig.default, .wide, str "*.txt"⟩

/-- `Config::section_order`. -/
def Config.section_order (cfg : Config) (fmt : NoteFormat) : List Str :=
  (match fmt with
   | .soap => cfg.formats.soap.section_order
   | .hp => cfg.formats.hp.section_order
   | .discharge => cfg.formats.discharge.section_order).map SectionName.asStr

/-- `Config::resolve_heading_alias`. -/
def Config.resolve_heading_alias (cfg : Config) (raw : Str) : Option Str :=
  let raw_key := normalize_heading_key raw
  (cfg.heading_aliases.find? fun kv =>
      normalize_heading_key kv.1 = raw_key).map (·.2)

/-! ## Heading detection (`src/src/parser/headings.rs`) -/

/-- The built-in `HEADING_MAP` alias table, keyed by already-normalized keys;
`HashMap::get` is exact key lookup, modelled with `find?` on the pair list. -/
def headingMapPairs : List (Str × Str) :=
  [(str "SUBJECTIVE", str "Subjective"), (str "OBJECTIVE", str "Objective"),
   (str "ASSESSMENT", str "Assessment"), (str "DIAGNOSIS", str "Assessment"),
   (str "DX", str "Assessment"), (str "PLAN", str "Plan"),
   (str "S", str "Subjective"), (str "O", str "Objective"),
   (str "A", str "Assessment"), (str "P", str "Plan"),
   (str "CHIEF COMPLAINT", str "Chief Complaint"), (str "CC", str "Chief Complaint"),
   (str "HPI", str "HPI"), (str "HISTORY OF PRESENT ILLNESS", str "HPI"),
   (str "PMH", str "PMH"), (str "PAST MEDICAL HISTORY", str "PMH"),
   (str "HX", str "PMH"), (str "MEDS", str "Medications"),
   (str "MEDICATIONS", str "Medications"), (str "ALLERGIES", str "Allergies"),
   (str "ALLERGY", str "Allergies"), (str "ROS", str "ROS"),
   (str "REVIEW OF SYSTEMS", str "ROS"), (str "PHYSICAL EXAM", str "Physical Exam"),
   (str "PHYSICAL EXAMINATION", str "Physical Exam"), (str "PE", str "Physical Exam"),
   (str "ADMISSION DX", str "Admission Dx"), (str "ADMISSION DIAGNOSIS", str "Admission Dx"),
   (str "ADMIT DX", str "Admission Dx"), (str "DISCHARGE DX", str "Discharge Dx"),
   (str "DISCHARGE DIAGNOSIS", str "Discharge Dx"), (str "HOSPITAL COURSE", str "Hospital Course"),
   (str "COURSE", str "Hospital Course"), (str "FOLLOW UP", str "Follow-up"),
   (str "FOLLOW-UP", str "Follow-up"), (str "FOLLOWUP", str "Follow-up"),
   (str "DISPOSITION", str "Disposition"), (str "DISPO", str "Disposition"),
   (str "INSTRUCTIONS", str "Instructions"), (str "DISCHARGE INSTRUCTIONS", str "Instructions")]

def headingMapGet (key : Str) : Option Str :=
  (headingMapPairs.find? fun kv => kv.1 = key).map (·.2)

/-- `headings.rs::canonicalize_heading`: user aliases first, then the
built-in table keyed by the normalized heading key. -/
def canonicalize_heading (raw : Str) (cfg : Config) : Option Str :=
  match cfg.resolve_heading_alias raw with
  | some mapped => some mapped
  | none => headingMapGet (normalize_heading_key raw)

/-- Character class `[A-Z0-9 /&-]` of `ALL_CAPS_RE`. -/
def clsCaps (c : Char) : Bool :=
  ('A' ≤ c && c ≤ 'Z') || ('0' ≤ c && c ≤ '9') || c = ' ' || c = '/' || c = '&' || c = '-'

/-- Character class `[A-Za-z0-9 /&.-]` of `INLINE_RE` / `COLON_RE`. -/
def clsHead (c : Char) : Bool :=
  isAsciiAlphanum c || c = ' ' || c = '/' || c = '&' || c = '.' || c = '-'

/-- Character class `[A-Za-z /&.-]` of the sectionizer's `FALLBACK_RE`
(case-insensitive flag subsumed by listing both cases; no digits). -/
def clsFb (c : Char) : Bool :=
  ('A' ≤ c && c ≤ 'Z') || ('a' ≤ c && c ≤ 'z') || c = ' ' || c = '/' || c = '&' || c = '.' || c = '-'

/-- `ALL_CAPS_RE = ^[A-Z][A-Z0-9 /&-]{1,40}$`; on success the raw heading
candidate is the whole match (`caps.get(0)`). -/
def allCapsMatch (s : Str) : Option Str :=
  match s with
  | [] => none
  | c :: rest =>
    if ('A' ≤ c && c ≤ 'Z') && (1 ≤ rest.length && rest.length ≤ 40) && rest.all clsCaps
    then some s else none

/-- The tail `\s*(?P<rest>.+)$` shared by `INLINE_RE` and `FALLBACK_RE`:
greedy whitespace skip, then at least one non-`\n` character up to the end
of the haystack, with the regex engine's backtracking semantics. -/
def inlineRest (post : Str) : Option Str :=
  let r := post.dropWhile isRustWs
  if r.isEmpty then
    match post.getLast? with
    | none => none
    | some c => if c = '\n' then none else some [c]
  else
    if r.any (fun c => c = '\n') then none else some r

/-- `COLON_RE = ^(?P<h>[A-Za-z0-9 /&.-]{2,40}):\s*$`; since `h`'s class
excludes `:`, the capture is exactly the text before the first colon. -/
def colonMatch (s : Str) : Option Str :=
  let pre := s.takeWhile (fun c => c ≠ ':')
  match s.dropWhile (fun c => c ≠ ':') with
  | [] => none
  | _ :: after =>
    if (2 ≤ pre.length && pre.length ≤ 40) && pre.all clsHead && after.all isRustWs
    then some pre else none

/-- `INLINE_RE = ^(?P<h>[A-Za-z0-9 /&.-]{1,40}):\s*(?P<rest>.+)$`. -/
def inlineMatch (s : Str) : Option (Str × Str) :=
  let pre := s.takeWhile (fun c => c ≠ ':')
  match s.dropWhile (fun c => c ≠ ':') with
  | [] => none
  | _ :: after =>
    if (1 ≤ pre.length && pre.length ≤ 40) && pre.all clsHead then
      (inlineRest after).map (fun rest => (pre, rest))
    else none

/-- `headings.rs::detect_heading`: try the three patterns in order; a
pattern whose candidate does not canonicalize falls through to the next. -/
def detect_heading (line : Str) (cfg : Config) : Option (Str × Option Str) :=
  let trimmed := trim line
  if trimmed.isEmpty then none
  else
    match (allCapsMatch trimmed).bind
        (fun raw => (canonicalize_heading raw cfg).map
          fun mapped => ((mapped, none) : Str × Option Str)) with
    | some r => some r
    | none =>
      match (colonMatch trimmed).bind
          (fun raw => (canonicalize_heading raw cfg).map
            fun mapped => ((mapped, none) : Str × Option Str)) with
      | some r => some r
      | none =>
        (inlineMatch trimmed).bind fun p =>
          (canonicalize_heading p.1 cfg).map fun mapped => (mapped, some (trim p.2))

/-- The shared shape of `scan_headings` and `fallback_headings`: apply a
per-line matcher to every line independently, recording 1-based line
numbers. -/
def collectHeadings (f : Str → Option (Str × Option Str)) : Nat → List Str → List HeadingLine
  | _, [] => []
  | i, l :: ls =>
    (match f l with
     | some (h, ic) => [⟨i + 1, l, h, ic⟩]
     | none => []) ++ collectHeadings f (i + 1) ls

/-- `headings.rs::scan_headings`. -/
def scan_headings (lines : List Str) (cfg : Config) : List HeadingLine :=
  collectHeadings (fun l => detect_heading l cfg) 0 lines

/-! ## Sectionizer (`src/clinote-main/src/parser/sectionize.rs`) -/

/-- Greedy matching of `FALLBACK_RE = (?i)^(?P<h>[A-Za-z /&.-]{2,40})\s*[:\-]\s*(?P<rest>.+)$`
for a fixed capture length `e` of `h`: the separator must be the first
non-whitespace character after the capture. -/
def fbAt (s : Str) (e : Nat) : Option (Str × Str) :=
  if 2 ≤ e ∧ e ≤ s.length ∧ (s.take e).all clsFb then
    match (s.drop e).dropWhile isRustWs with
    | sep :: rest0 =>
      if sep = ':' ∨ sep = '-' then (inlineRest rest0).map (fun r => (s.take e, r))
      else none
    | [] => none
  else none

/-- Backtracking over capture lengths, longest first (the regex engine's
greedy repetition on `h`). -/
def fbTry (s : Str) : Nat → Option (Str × Str)
  | 0 => none
  | e + 1 =>
    match fbAt s (e + 1) with
    | some r => some r
    | none => fbTry s e

def fallbackMatch (s : Str) : Option (Str × Str) :=
  fbTry s (min 40 s.length)

/-- `sectionize.rs::fallback_headings`. -/
def fallback_headings (lines : List Str) (cfg : Config) : List HeadingLine :=
  collectHeadings (fun l =>
    (fallbackMatch (trim l)).bind fun hr =>
      (canonicalize_heading hr.1 cfg).map fun mapped => (mapped, some (trim hr.2))) 0 lines

/-- `sectionize.rs::map_heading`: first section-order name with the same
normalized key, else the `"Narrative"` catch-all (with `mapped = false`). -/
def map_heading (heading : Str) (section_order : List Str) : Str × Bool :=
  match section_order.find?
      (fun name => decide (normalize_heading_key name = normalize_heading_key heading)) with
  | some name => (name, true)
  | none => (str "Narrative", false)

/-- The candidate-building loop of `extract_sections`: each heading spans
from its own line to the line before the next heading (document end for the
last); inline content becomes the first content line.  The `Bool` records
`map_heading`'s `mapped` flag. -/
def buildCandidates (lines : List Str) (order : List Str) (bound : Nat) (conf : ℚ) :
    List HeadingLine → List (SectionCandidate × Bool)
  | [] => []
  | h :: rest =>
    let end_line := match rest with | [] => bound | h2 :: _ => h2.line_num - 1
    let inline0 : List Str := match h.inline_content with | some ic => [ic] | none => []
    let content_lines := inline0 ++
      (List.range' (h.line_num + 1) (end_line + 1 - (h.line_num + 1))).filterMap
        (fun k => lines.get? (k - 1))
    let nm := map_heading h.heading order
    (⟨nm.1, h.heading, trim (joinLines content_lines), h.line_num, end_line, conf⟩, nm.2)
      :: buildCandidates lines order bound conf rest

/-- Sorting key of `headings.sort_by_key(|h| h.line_num)`; `sort_by_key` is
a stable sort, so it is extensionally insertion sort by this key. -/
def headingLe (a b : HeadingLine) : Prop := a.line_num ≤ b.line_num

instance : DecidableRel headingLe := fun a b => Nat.decLe a.line_num b.line_num

/-- The no-headings catch-all candidate of `extract_sections`. -/
def mkNarrativeCandidate (lines : List Str) : SectionCandidate :=
  ⟨str "Narrative", str "Narrative", trim (joinLines lines), 1, max lines.length 1, 0.4⟩

/-- The headings `extract_sections` actually sections on: the ones found
by the scan, or — when the scan found none and heuristics are enabled —
the fallback headings. -/
def effectiveHeadings (lines : List Str) (cfg : Config) (apply_heuristics : Bool)
    (headings_found : List HeadingLine) : List HeadingLine :=
  let fb := if headings_found.isEmpty ∧ apply_heuristics then fallback_headings lines cfg else []
  if headings_found.isEmpty then fb else headings_found

/-- `sectionize.rs::extract_sections`. -/
def extract_sections (lines : List Str) (headings_found : List HeadingLine)
    (fmt : NoteFormat) (cfg : Config) (apply_heuristics : Bool) :
    List SectionCandidate × List ParseWarning :=
  let bound := max lines.length 1
  let headings := effectiveHeadings lines cfg apply_heuristics headings_found
  if headings.isEmpty then
    ([mkNarrativeCandidate lines],
     [mkWarning (str "no_headings")
        (str "No headings detected; content grouped as Narrative") 1 bound .warning])
  else
    let used_fallback := headings_found.isEmpty
    let warnings0 := if used_fallback then
        [mkWarning (str "fallback_heuristics")
           (str "Fallback heuristics applied to find headings") 1 bound .info]
      else []
    let order := cfg.section_order fmt
    let conf : ℚ := if used_fallback then 0.6 else 0.85
    let pairs := buildCandidates lines order bound conf (List.insertionSort headingLe headings)
    let candidates := pairs.map (·.1)
    let unmapped := pairs.filterMap (fun p =>
      if p.2 then none
      else some (mkWarning (str "unmapped_heading")
        (str "Heading '" ++ p.1.raw_heading ++ str "' not in target format")
        p.1.start_line p.1.end_line .info))
    let ordered := (order.flatMap fun name =>
        candidates.filter fun c =>
          decide (normalize_heading_key c.name = normalize_heading_key name)) ++
      candidates.filter (fun c =>
        decide (normalize_heading_key c.name = normalize_heading_key (str "Narrative")))
    (ordered, warnings0 ++ unmapped)

/-! ## Bundle splitter (`src/src/parser/bundle.rs`) -/

/-- `DATE_RE = ^\s*(\d{4}-\d{2}-\d{2}|\d{2}/\d{2}/\d{4})` as a prefix test
(`is_match`); digits are modelled as ASCII `0-9`. -/
def dateMatch (line : Str) : Bool :=
  let r := line.dropWhile isRustWs
  (match r with
   | y1 :: y2 :: y3 :: y4 :: '-' :: m1 :: m2 :: '-' :: d1 :: d2 :: _ =>
     [y1, y2, y3, y4, m1, m2, d1, d2].all (·.isDigit)
   | _ => false) ||
  (match r with
   | m1 :: m2 :: '/' :: d1 :: d2 :: '/' :: y1 :: y2 :: y3 :: y4 :: _ =>
     [m1, m2, d1, d2, y1, y2, y3, y4].all (·.isDigit)
   | _ => false)

/-- `bundle.rs::split_on_delimiters`. -/
def split_on_delimiters (text : Str) (delimiters : List Str) : List Str :=
  let step := fun (st : List Str × List Str) (line : Str) =>
    let trimmed := trim line
    if delimiters.any (fun d => decide (trim d = trimmed)) then
      (if st.2.isEmpty then st.1 else st.1 ++ [trim (joinLines st.2)], [])
    else (st.1, st.2 ++ [line])
  let st := (rlines text).foldl step ([], [])
  let notes := if st.2.isEmpty then st.1 else st.1 ++ [trim (joinLines st.2)]
  if notes.isEmpty then [text] else notes

/-- `bundle.rs::split_on_dates`. -/
def split_on_dates (text : Str) : List Str :=
  let step := fun (st : List Str × List Str × Nat) (line : Str) =>
    let st :=
      if dateMatch line then
        ((if st.2.1.isEmpty then st.1 else st.1 ++ [trim (joinLines st.2.1)]),
         ([] : List Str), st.2.2 + 1)
      else st
    (st.1, st.2.1 ++ [line], st.2.2)
  let st := (rlines text).foldl step ([], [], 0)
  let notes := if st.2.1.isEmpty then st.1 else st.1 ++ [trim (joinLines st.2.1)]
  if st.2.2 ≤ 1 then [text] else notes

def bundleNotSplitWarning (text : Str) : ParseWarning :=
  mkWarning (str "bundle_not_split")
    (str "Bundle mode requested but no clear delimiters found")
    1 (max (rlines text).length 1) .warning

/-- `bundle.rs::split_bundle_internal`. -/
def split_bundle_internal (text : Str) (cfg : Config) (strict : Bool) :
    List Str × List ParseWarning :=
  let notes0 := split_on_delimiters text cfg.bundle.delimiters
  let notes := if notes0.length ≤ 1 then split_on_dates text else notes0
  if notes.length ≤ 1 then
    ([text], if strict then [bundleNotSplitWarning text] else [])
  else (notes, [])

/-- `bundle.rs::split_bundle`. -/
def split_bundle (text : Str) (mode : BundleMode) (cfg : Config) :
    List Str × List ParseWarning :=
  match mode with
  | .off => ([text], [])
  | .on => split_bundle_internal text cfg true
  | .auto => split_bundle_internal text cfg false

/-! ## Parse pipeline (`src/clinote-main/src/parser/mod.rs`) -/

structure ParseOptions where
  apply_heuristics : Bool

/-- `mod.rs::extract_candidates`. -/
def extract_candidates (text : Str) (fmt : NoteFormat) (cfg : Config)
    (options : ParseOptions) : List SectionCandidate × List ParseWarning :=
  let normalized := normalize_text text
  let lines := rlines normalized
  let headings := scan_headings lines cfg
  extract_sections lines headings fmt cfg options.apply_heuristics

/-- Rust `format!("{}", n)` on a `usize`. -/
def natToStr (n : Nat) : Str := (toString n).data

/-- `mod.rs::build_note`; `now` stands for the two `util::now_iso()` calls
(note id and metadata timestamp), `tool_version` for `CARGO_PKG_VERSION`. -/
def build_note (candidates : List SectionCandidate) (fmt : NoteFormat)
    (source_file : Option Str) (note_index : Nat) (warnings : List ParseWarning)
    (now tool_version : Str) : StructuredNote :=
  let step := fun (st : List Section × List ParseWarning) (candidate : SectionCandidate) =>
    let ws :=
      if (trim candidate.content).isEmpty then
        st.2 ++ [mkWarning (str "empty_section")
          (str "Section " ++ candidate.name ++ str " has no content")
          candidate.start_line candidate.end_line .info]
      else st.2
    (st.1 ++ [⟨candidate.name, trim candidate.content, candidate.confidence⟩], ws)
  let st := candidates.foldl step ([], warnings)
  { id := str "note-" ++ natToStr note_index ++ str "-" ++ now
    format := fmt
    source_file := source_file
    note_index := note_index
    sections := st.1
    warnings := st.2
    metadata := ⟨now, tool_version⟩ }

/-- `mod.rs::parse_note`. -/
def parse_note (text : Str) (fmt : NoteFormat) (cfg : Config)
    (source_file : Option Str) (note_index : Nat) (options : ParseOptions)
    (now tool_version : Str) : StructuredNote :=
  let cw := extract_candidates text fmt cfg options
  build_note cw.1 fmt source_file note_index cw.2 now tool_version

/-- The `enumerate`-and-map loop of `parse_notes`. -/
def buildNotesFrom (fmt : NoteFormat) (cfg : Config) (source_file : Option Str)
    (options : ParseOptions) (now tool_version : Str)
    (bundle_warnings : List ParseWarning) (note_offset : Nat) :
    Nat → List Str → List StructuredNote
  | _, [] => []
  | idx, t :: ts =>
    (let cw := extract_candidates t fmt cfg options
     build_note cw.1 fmt source_file (note_offset + idx + 1) (cw.2 ++ bundle_warnings)
       now tool_version)
      :: buildNotesFrom fmt cfg source_file options now tool_version bundle_warnings
           note_offset (idx + 1) ts

/-- `mod.rs::parse_notes`. -/
def parse_notes (text : Str) (fmt : NoteFormat) (cfg : Config)
    (source_file : Option Str) (note_offset : Nat) (options : ParseOptions)
    (now tool_version : Str) : List StructuredNote :=
  let nb := split_bundle text cfg.bundle.mode_default cfg
  buildNotesFrom fmt cfg source_file options now tool_version nb.2 note_offset 0 nb.1

/-! ## Validator (`src/src/validate.rs`) -/

inductive Severity where
  | info | warn | error
deriving DecidableEq

structure Span where
  line_start : Nat
  line_end : Nat
deriving DecidableEq

/-- `validate.rs::ValidationIssue`; the Rust field `section` is named `sect`
here because `section` is a Lean keyword. -/
structure ValidationIssue where
  code : Str
  message : Str
  severity : Severity
  sect : Option Str
  span : Option Span
deriving DecidableEq

inductive Template where
  | soap | hp | discharge
deriving DecidableEq

def MIN_SECTION_LEN : Nat := 20

/-- Rust `str::len` (UTF-8 byte length). -/
def byteLen (s : Str) : Nat := (s.map Char.utf8Size).sum

/-- `validate.rs::required_groups`. -/
def required_groups (template : Template) : List (List Str) :=
  match template with
  | .soap =>
    [[str "Subjective", str "S"], [str "Objective", str "O"],
     [str "Assessment", str "A", str "Diagnosis", str "Dx"],
     [str "Plan", str "P"]]
  | .hp =>
    [[str "HPI", str "History of Present Illness"],
     [str "PMH", str "Past Medical History", str "Hx"],
     [str "Medications", str "Meds"], [str "Allergies", str "Allergy"],
     [str "Physical Exam", str "Exam", str "PE"],
     [str "Assessment", str "Dx", str "Diagnosis"],
     [str "Plan", str "P"]]
  | .discharge =>
    [[str "Admission Dx", str "Discharge Dx", str "Diagnoses", str "Diagnosis"],
     [str "Hospital Course", str "HospitalCourse", str "Course"],
     [str "Medications", str "Discharge Meds", str "DischargeMeds"],
     [str "Follow-up", str "Follow Up", str "FollowUp"]]

/-- `validate.rs::known_sections` (the `HashSet` is modelled as the list of
inserted normalized keys; only `contains` is used). -/
def known_sections (template : Template) : List Str :=
  ((required_groups template).flatMap (fun g => g)).map normalize_heading_key ++
  (match template with
   | .soap => [str "Narrative"]
   | .hp => [str "Chief Complaint", str "ROS", str "Review of Systems", str "Narrative"]
   | .discharge => [str "Disposition", str "Instructions", str "Narrative"]).map
    normalize_heading_key

/-- The per-note tally `counts: HashMap<String, usize>` of `validate_note`. -/
def keyCount (sections : List Section) (key : Str) : Nat :=
  sections.countP (fun s => decide (normalize_heading_key s.name = key))

/-- The required-group loop of `validate_note`: one `missing_required`
issue per group with no present alias. -/
def missingIssues (sections : List Section) (strict : Bool) :
    List (List Str) → List ValidationIssue
  | [] => []
  | group :: gs =>
    (if group.any (fun al => decide (0 < keyCount sections (normalize_heading_key al)))
     then []
     else
      [{ code := str "missing_required"
         message := str "Missing required section (" ++ group.headD [] ++ str ")"
         severity := if strict then .error else .warn
         sect := group.head?
         span := none }]) ++ missingIssues sections strict gs

/-- The per-section loop body of `validate_note`: duplicate, unknown-section
and too-short checks, in source order. -/
def sectionIssues (sections : List Section) (known : List Str) (s : Section) :
    List ValidationIssue :=
  let key := normalize_heading_key s.name
  (if 1 < keyCount sections key then
    [{ code := str "duplicate_section"
       message := str "Duplicate section '" ++ s.name ++ str "'"
       severity := Severity.warn, sect := some s.name, span := none }]
   else []) ++
  (if known.contains key then []
   else
    [{ code := str "unknown_section"
       message := str "Unknown section '" ++ s.name ++ str "'"
       severity := Severity.info, sect := some s.name, span := none }]) ++
  (let trimmed := trim s.content
   if trimmed.isEmpty ∨ byteLen trimmed < MIN_SECTION_LEN then
    [{ code := str "section_too_short"
       message := str "Section '" ++ s.name ++ str "' is empty or too short"
       severity := Severity.warn, sect := some s.name, span := none }]
   else [])

/-- `validate.rs::validate_note`. -/
def validate_note (note : StructuredNote) (template : Template) (strict : Bool) :
    List ValidationIssue :=
  missingIssues note.sections strict (required_groups template) ++
    note.sections.flatMap (sectionIssues note.sections (known_sections template))

/-! ## Claim C4: alias resolution is idempotent on canonical names -/

theorem resolve_heading_alias_eq_none (cfg : Config) (raw : Str)
    (hal : ∀ kv ∈ cfg.heading_aliases,
      normalize_heading_key kv.1 ≠ normalize_heading_key raw) :
    cfg.resolve_heading_alias raw = none := by
  have hfind : cfg.heading_aliases.find?
      (fun kv => normalize_heading_key kv.1 = normalize_heading_key raw) = none := by
    rw [List.find?_eq_none]
    intro kv hkv
    simpa using hal kv hkv
  simp [Config.resolve_heading_alias, hfind]

/-- Claim C4, counterexample: the claim includes the catch-all name
`"Narrative"`, but `canonicalize_heading` returns `none` on it (the built-in
`HEADING_MAP` has no `NARRATIVE` key), not `Some "Narrative"` — even with
the default configuration, whose user alias table is empty. -/
theorem C4_counterexample :
    canonicalize_heading (SectionName.narrative.asStr) Config.default = none := by
  decide

/-- Claim C4 (amended): alias resolution is idempotent on every canonical
template section name except `"Narrative"`: for each of the 17 non-Narrative
`SectionName`s and every configuration whose user alias table has no entry
whose key normalizes like that name, `canonicalize_heading` maps the name's
canonical spelling to `Some` of itself. -/
theorem C4_canonicalize_idempotent (cfg : Config) (s : SectionName)
    (hs : s ≠ SectionName.narrative)
    (hal : ∀ kv ∈ cfg.heading_aliases,
      normalize_heading_key kv.1 ≠ normalize_heading_key s.asStr) :
    canonicalize_heading s.asStr cfg = some s.asStr := by
  unfold canonicalize_heading
  rw [resolve_heading_alias_eq_none cfg s.asStr hal]
  cases s
  case narrative => exact absurd rfl hs
  all_goals decide

/-- Claim C4, witness: the amended theorem applied to `"Plan"` and the
default configuration. -/
theorem C4_canonicalize_idempotent_witness :
    SectionName.plan ≠ SectionName.narrative ∧
    canonicalize_heading (SectionName.plan.asStr) Config.default
      = some (SectionName.plan.asStr) :=
  ⟨by decide,
   C4_canonicalize_idempotent Config.default .plan (by decide)
     (by intro kv hkv; cases hkv)⟩

/-! ## Claim C8: no heading without successful canonicalization -/

theorem detectTail_some (cfg : Config) (t : Str) (r : Str × Option Str)
    (hr : (match (colonMatch t).bind
        (fun raw => (canonicalize_heading raw cfg).map
          fun mapped => ((mapped, none) : Str × Option Str)) with
      | some r' => some r'
      | none =>
        (inlineMatch t).bind fun p =>
          (canonicalize_heading p.1 cfg).map fun mapped => (mapped, some (trim p.2))) = some r) :
    ∃ raw, canonicalize_heading raw cfg = some r.1 := by
  cases hc : colonMatch t with
  | some raw =>
    rw [hc] at hr
    simp only [Option.some_bind] at hr
    cases hcan : canonicalize_heading raw cfg with
    | some m =>
      rw [hcan] at hr
      simp at hr
      exact ⟨raw, by subst hr; exact hcan⟩
    | none =>
      rw [hcan] at hr
      simp only [Option.map_none'] at hr
      cases hi : inlineMatch t with
      | some p =>
        rw [hi] at hr
        simp only [Option.some_bind] at hr
        cases hcan2 : canonicalize_heading p.1 cfg with
        | some m =>
          rw [hcan2] at hr
          simp at hr
          exact ⟨p.1, by subst hr; exact hcan2⟩
        | none => rw [hcan2] at hr; simp at hr
      | none => rw [hi] at hr; simp at hr
  | none =>
    rw [hc] at hr
    simp only [Option.none_bind] at hr
    cases hi : inlineMatch t with
    | some p =>
      rw [hi] at hr
      simp only [Option.some_bind] at hr
      cases hcan2 : canonicalize_heading p.1 cfg with
      | some m =>
        rw [hcan2] at hr
        simp at hr
        exact ⟨p.1, by subst hr; exact hcan2⟩
      | none => rw [hcan2] at hr; simp at hr
    | none => rw [hi] at hr; simp at hr

/-- Claim C8: if every detector pattern that matches the (trimmed) line has
a raw heading candidate that resolves through neither the user alias table
nor the built-in alias table, then `detect_heading` returns `None`; and
whenever `detect_heading` returns `Some`, its canonical name is the result
of a successful `canonicalize_heading` call on some raw candidate. -/
theorem C8_detect_heading_requires_canonicalization (line : Str) (cfg : Config) :
    ((∀ raw, allCapsMatch (trim line) = some raw → canonicalize_heading raw cfg = none) →
     (∀ raw, colonMatch (trim line) = some raw → canonicalize_heading raw cfg = none) →
     (∀ p : Str × Str, inlineMatch (trim line) = some p → canonicalize_heading p.1 cfg = none) →
     detect_heading line cfg = none) ∧
    (∀ r : Str × Option Str, detect_heading line cfg = some r →
      ∃ raw, canonicalize_heading raw cfg = some r.1) := by
  constructor
  · intro h1 h2 h3
    have ha : (allCapsMatch (trim line)).bind
        (fun raw => (canonicalize_heading raw cfg).map
          fun mapped => ((mapped, none) : Str × Option Str)) = none := by
      cases hx : allCapsMatch (trim line) with
      | none => rfl
      | some raw => simp [h1 raw hx]
    have hc : (colonMatch (trim line)).bind
        (fun raw => (canonicalize_heading raw cfg).map
          fun mapped => ((mapped, none) : Str × Option Str)) = none := by
      cases hx : colonMatch (trim line) with
      | none => rfl
      | some raw => simp [h2 raw hx]
    have hi : (inlineMatch (trim line)).bind
        (fun p => (canonicalize_heading p.1 cfg).map
          fun mapped => (mapped, some (trim p.2))) = none := by
      cases hx : inlineMatch (trim line) with
      | none => rfl
      | some p => simp [h3 p hx]
    by_cases he : (trim line).isEmpty
    · simp [detect_heading, he]
    · simp [detect_heading, he, ha, hc, hi]
  · intro r hr
    simp only [detect_heading] at hr
    by_cases he : (trim line).isEmpty
    · simp [he] at hr
    · rw [if_neg he] at hr
      cases hac : allCapsMatch (trim line) with
      | some raw =>
        rw [hac] at hr
        simp only [Option.some_bind] at hr
        cases hcan : canonicalize_heading raw cfg with
        | some m =>
          rw [hcan] at hr
          simp at hr
          exact ⟨raw, by subst hr; exact hcan⟩
        | none =>
          rw [hcan] at hr
          simp only [Option.map_none'] at hr
          exact detectTail_some cfg (trim line) r hr
      | none =>
        rw [hac] at hr
        simp only [Option.none_bind] at hr
        exact detectTail_some cfg (trim line) r hr

/-- Claim C8, witness: `"Random Words: yes"` matches the inline
heading-with-content pattern but `"Random Words"` canonicalizes to nothing,
so the line is not treated as a heading under the default configuration. -/
theorem C8_detect_heading_witness :
    detect_heading (str "Random Words: yes") Config.default = none := by
  have h := (C8_detect_heading_requires_canonicalization (str "Random Words: yes")
    Config.default).1
  apply h
  · intro raw hx
    have e : allCapsMatch (trim (str "Random Words: yes")) = none := by decide
    rw [e] at hx
    cases hx
  · intro raw hx
    have e : colonMatch (trim (str "Random Words: yes")) = none := by decide
    rw [e] at hx
    cases hx
  · intro p hx
    have e : inlineMatch (trim (str "Random Words: yes"))
        = some (str "Random Words", str "yes") := by decide
    rw [e] at hx
    have hp := Option.some.inj hx
    rw [← hp]
    decide

/-! ## Claims C9 and C2: validator behaviour -/

theorem map_eq_self_of_mem {α : Type} (f : α → α) (l : List α)
    (h : ∀ a ∈ l, f a = a) : l.map f = l := by
  induction l with
  | nil => rfl
  | cons a t ih =>
    rw [List.map_cons, h a (by simp), ih (fun x hx => h x (by simp [hx]))]

/-- Claim-side description of strict mode: escalate `missing_required`
issues to `Error`, leave every other issue unchanged. -/
def escalateMissing (i : ValidationIssue) : ValidationIssue :=
  if i.code = str "missing_required" then { i with severity := Severity.error } else i

theorem escalateMissing_of_ne (i : ValidationIssue)
    (h : i.code ≠ str "missing_required") : escalateMissing i = i := by
  simp [escalateMissing, h]

theorem missingIssues_code (S : List Section) (strict : Bool) (G : List (List Str)) :
    ∀ i ∈ missingIssues S strict G, i.code = str "missing_required" := by
  induction G with
  | nil => intro i hi; cases hi
  | cons g gs ih =>
    intro i hi
    rw [missingIssues, List.mem_append] at hi
    rcases hi with hi | hi
    · split at hi
      · cases hi
      · simp only [List.mem_singleton] at hi
        subst hi
        rfl
    · exact ih i hi

theorem sectionIssues_mem (S : List Section) (K : List Str) (s : Section) :
    ∀ i ∈ sectionIssues S K s,
      (i.code = str "duplicate_section" ∧ i.severity = Severity.warn) ∨
      (i.code = str "unknown_section" ∧ i.severity = Severity.info) ∨
      (i.code = str "section_too_short" ∧ i.severity = Severity.warn) := by
  intro i hi
  unfold sectionIssues at hi
  simp only [List.mem_append] at hi
  rcases hi with (hi | hi) | hi
  · split at hi
    · simp only [List.mem_singleton] at hi
      subst hi
      exact Or.inl ⟨rfl, rfl⟩
    · cases hi
  · split at hi
    · cases hi
    · simp only [List.mem_singleton] at hi
      subst hi
      exact Or.inr (Or.inl ⟨rfl, rfl⟩)
  · split at hi
    · simp only [List.mem_singleton] at hi
      subst hi
      exact Or.inr (Or.inr ⟨rfl, rfl⟩)
    · cases hi

theorem escalate_warn_record (m : Str) (o : Option Str) (sp : Option Span) :
    escalateMissing ⟨str "missing_required", m, Severity.warn, o, sp⟩ =
      ⟨str "missing_required", m, Severity.error, o, sp⟩ := by
  simp [escalateMissing]

theorem missingIssues_true_eq (S : List Section) (G : List (List Str)) :
    missingIssues S true G = (missingIssues S false G).map escalateMissing := by
  induction G with
  | nil => rfl
  | cons g gs ih =>
    rw [missingIssues, missingIssues, List.map_append]
    by_cases hcond :
        (g.any (fun al => decide (0 < keyCount S (normalize_heading_key al)))) = true
    · rw [if_pos hcond, if_pos hcond]
      simpa using ih
    · rw [if_neg hcond, if_neg hcond]
      simp [escalate_warn_record, ih]

theorem filter_map_escalate (l : List ValidationIssue) :
    (l.map escalateMissing).filter (fun i => decide (i.code ≠ str "missing_required")) =
      l.filter (fun i => decide (i.code ≠ str "missing_required")) := by
  induction l with
  | nil => rfl
  | cons a t ih =>
    rw [List.map_cons, List.filter_cons, List.filter_cons]
    by_cases hcode : a.code = str "missing_required"
    · have e1 : escalateMissing a = { a with severity := Severity.error } := by
        simp [escalateMissing, hcode]
      have hpa : (decide (a.code ≠ str "missing_required")) = false := by
        simp [hcode]
      have hpe : (decide ((escalateMissing a).code ≠ str "missing_required")) = false := by
        rw [e1]
        simpa using hpa
      rw [hpa, hpe]
      simpa using ih
    · have e1 : escalateMissing a = a := escalateMissing_of_ne a hcode
      have hpa : (decide (a.code ≠ str "missing_required")) = true := by
        simp [hcode]
      rw [e1, hpa]
      simp only [eq_self_iff_true, if_true]
      exact congrArg _ ih

/-- Claim C9: for every note and template, the issues produced with
`strict = true` are exactly the issues produced with `strict = false` with
every `missing_required` issue escalated from `Warn` to `Error`; in
particular the non-`missing_required` issues (duplicate, unknown, too-short)
are identical in the two runs. -/
theorem C9_strict_only_escalates (note : StructuredNote) (tmpl : Template) :
    validate_note note tmpl true = (validate_note note tmpl false).map escalateMissing ∧
    (validate_note note tmpl true).filter
        (fun i => decide (i.code ≠ str "missing_required")) =
      (validate_note note tmpl false).filter
        (fun i => decide (i.code ≠ str "missing_required")) := by
  have h1 : validate_note note tmpl true
      = (validate_note note tmpl false).map escalateMissing := by
    unfold validate_note
    rw [List.map_append, missingIssues_true_eq]
    congr 1
    rw [map_eq_self_of_mem]
    intro i hi
    rw [List.mem_flatMap] at hi
    obtain ⟨s, _, hi⟩ := hi
    rcases sectionIssues_mem _ _ _ i hi with ⟨h, _⟩ | ⟨h, _⟩ | ⟨h, _⟩ <;>
      exact escalateMissing_of_ne i (by rw [h]; decide)
  exact ⟨h1, by rw [h1, filter_map_escalate]⟩

theorem mem_ite_singleton {α : Type} {c : Prop} [Decidable c] {x a : α}
    (h : a ∈ (if c then [x] else [])) : a = x := by
  split at h
  · simpa using h
  · cases h

/-- Claim-side predicate: a `duplicate_section` issue whose referenced
section name has normalized key `k`. -/
def dupPred (k : Str) (i : ValidationIssue) : Bool :=
  decide (i.code = str "duplicate_section" ∧
    Option.map normalize_heading_key i.sect = some k)

theorem dupPred_false_of_code (k : Str) (i : ValidationIssue)
    (h : i.code ≠ str "duplicate_section") : dupPred k i = false := by
  simp only [dupPred, decide_eq_false_iff_not]
  intro hcontra
  exact h hcontra.1

theorem countP_dupPred_zero (k : Str) (l : List ValidationIssue)
    (hl : ∀ i ∈ l, i.code ≠ str "duplicate_section") :
    l.countP (dupPred k) = 0 := by
  rw [List.countP_eq_zero]
  intro i hi
  simp [dupPred_false_of_code k i (hl i hi)]

theorem sectionIssues_dup_count (S : List Section) (K : List Str) (k : Str) (s : Section)
    (hk2 : 1 < keyCount S k) :
    (sectionIssues S K s).countP (dupPred k)
      = if normalize_heading_key s.name = k then 1 else 0 := by
  simp only [sectionIssues, List.countP_append]
  have h2 : (if K.contains (normalize_heading_key s.name) then ([] : List ValidationIssue)
      else [⟨str "unknown_section", str "Unknown section '" ++ s.name ++ str "'",
             Severity.info, some s.name, none⟩]).countP (dupPred k) = 0 := by
    apply countP_dupPred_zero
    intro i hi
    split at hi
    · cases hi
    · simp only [List.mem_singleton] at hi
      subst hi
      exact (by decide : str "unknown_section" ≠ str "duplicate_section")
  have h3 : (if (trim s.content).isEmpty ∨ byteLen (trim s.content) < MIN_SECTION_LEN then
      [(⟨str "section_too_short", str "Section '" ++ s.name ++ str "' is empty or too short",
         Severity.warn, some s.name, none⟩ : ValidationIssue)]
      else []).countP (dupPred k) = 0 := by
    apply countP_dupPred_zero
    intro i hi
    have hix := mem_ite_singleton hi
    subst hix
    exact (by decide : str "section_too_short" ≠ str "duplicate_section")
  rw [h2, h3]
  by_cases hkey : normalize_heading_key s.name = k
  · rw [hkey, if_pos hk2]
    simp [List.countP_cons, dupPred, hkey]
  · rw [if_neg hkey]
    split
    · simp [List.countP_cons, dupPred, hkey]
    · rfl

theorem validate_dup_count (note : StructuredNote) (tmpl : Template) (strict : Bool)
    (k : Str) (hk2 : 1 < keyCount note.sections k) :
    (validate_note note tmpl strict).countP (dupPred k) = keyCount note.sections k := by
  unfold validate_note
  rw [List.countP_append]
  have hm : (missingIssues note.sections strict (required_groups tmpl)).countP (dupPred k)
      = 0 := by
    apply countP_dupPred_zero
    intro i hi
    rw [missingIssues_code note.sections strict (required_groups tmpl) i hi]
    decide
  rw [hm, Nat.zero_add]
  have haux : ∀ L : List Section,
      (L.flatMap (sectionIssues note.sections (known_sections tmpl))).countP (dupPred k)
        = L.countP (fun s => decide (normalize_heading_key s.name = k)) := by
    intro L
    induction L with
    | nil => rfl
    | cons s t ih =>
      rw [List.flatMap_cons, List.countP_append, ih,
        sectionIssues_dup_count note.sections (known_sections tmpl) k s hk2,
        List.countP_cons]
      by_cases h : normalize_heading_key s.name = k
      · simp [h, Nat.add_comm]
      · simp [h]
  exact haux note.sections

/-- Claim C2 (amended): `validate_note` emits one `duplicate_section` issue
per section occurrence of a duplicated canonical key: a note with exactly
two sections canonicalizing to the same key receives exactly two
`duplicate_section` issues for that key (one referencing each section's
name), each with severity `Warn` regardless of the strict flag. -/
theorem C2_duplicate_issue_per_occurrence (note : StructuredNote) (tmpl : Template)
    (strict : Bool) (k : Str) (h2 : keyCount note.sections k = 2) :
    (validate_note note tmpl strict).countP (dupPred k) = 2 ∧
    ∀ i ∈ validate_note note tmpl strict,
      i.code = str "duplicate_section" → i.severity = Severity.warn := by
  constructor
  · rw [validate_dup_count note tmpl strict k (by rw [h2]; exact Nat.one_lt_two), h2]
  · intro i hi hcode
    unfold validate_note at hi
    rw [List.mem_append] at hi
    rcases hi with hi | hi
    · rw [missingIssues_code note.sections strict (required_groups tmpl) i hi] at hcode
      exact absurd hcode (by decide)
    · rw [List.mem_flatMap] at hi
      obtain ⟨s, _, hi⟩ := hi
      rcases sectionIssues_mem note.sections (known_sections tmpl) s i hi with
        ⟨_, hs⟩ | ⟨hc2, _⟩ | ⟨hc2, _⟩
      · exact hs
      · rw [hcode] at hc2
        exact absurd hc2 (by decide)
      · rw [hcode] at hc2
        exact absurd hc2 (by decide)

/-- The two-duplicate note of the claim's scenario: sections `"Plan"` and
`"PLAN"` both canonicalize to the key `PLAN`. -/
def dupNote : StructuredNote :=
  { id := str "test-note"
    format := .soap
    source_file := none
    note_index := 1
    sections :=
      [⟨str "Plan", str "start antibiotics and follow up", 0.9⟩,
       ⟨str "PLAN", str "recheck labs in two weeks", 0.9⟩]
    warnings := []
    metadata := ⟨str "2024-01-01T00:00:00Z", str "0.1.0"⟩ }

/-- Claim C2, counterexample: on a note with exactly two sections whose
names canonicalize to the same key, `validate_note` emits two
`duplicate_section` issues, not exactly one as claimed. -/
theorem C2_counterexample :
    keyCount dupNote.sections (str "PLAN") = 2 ∧
    (validate_note dupNote Template.soap false).countP
      (fun i => decide (i.code = str "duplicate_section")) = 2 := by
  constructor
  · decide
  · decide

/-- Claim C2, witness: the amended theorem applied to the concrete
two-duplicate note. -/
theorem C2_duplicate_issue_witness :
    keyCount dupNote.sections (str "PLAN") = 2 ∧
    ((validate_note dupNote Template.soap true).countP (dupPred (str "PLAN")) = 2 ∧
     ∀ i ∈ validate_note dupNote Template.soap true,
       i.code = str "duplicate_section" → i.severity = Severity.warn) :=
  ⟨by decide,
   C2_duplicate_issue_per_occurrence dupNote Template.soap true (str "PLAN") (by decide)⟩

/-! ## Claim C7: bundle splitter on unsplittable input -/

/-- Claim C7: whenever both the delimiter strategy and the date strategy
produce at most one note, `split_bundle` returns the whole text as exactly
one note, with a Warning-severity `bundle_not_split` warning exactly when
the mode is `on` (mode `auto` and mode `off` warn nothing). -/
theorem C7_bundle_single_note (text : Str) (cfg : Config) (mode : BundleMode)
    (hdel : (split_on_delimiters text cfg.bundle.delimiters).length ≤ 1)
    (hdat : (split_on_dates text).length ≤ 1) :
    split_bundle text mode cfg =
      ([text], if mode = BundleMode.on then [bundleNotSplitWarning text] else []) := by
  have hint : ∀ strict, split_bundle_internal text cfg strict
      = ([text], if strict then [bundleNotSplitWarning text] else []) := by
    intro strict
    simp only [split_bundle_internal]
    rw [if_pos hdel, if_pos hdat]
  cases mode
  all_goals simp [split_bundle, hint]

/-- Claim C7, witness: an input with no delimiter lines and no dates, in
mode `on`, yields the whole text as one note plus the warning. -/
theorem C7_bundle_single_note_witness :
    (split_on_delimiters (str "clinic note") Config.default.bundle.delimiters).length ≤ 1 ∧
    (split_on_dates (str "clinic note")).length ≤ 1 ∧
    split_bundle (str "clinic note") BundleMode.on Config.default
      = ([str "clinic note"], [bundleNotSplitWarning (str "clinic note")]) :=
  ⟨by decide, by decide, by
    have h := C7_bundle_single_note (str "clinic note") Config.default .on
      (by decide) (by decide)
    simpa using h⟩

/-! ## Claim C3: the pipeline is total and falls back to Narrative -/

theorem dropWhile_head_not (p : Char → Bool) (l : Str) :
    ∀ c, (l.dropWhile p).head? = some c → p c = false := by
  induction l with
  | nil => intro c h; cases h
  | cons a t ih =>
    intro c h
    rw [List.dropWhile_cons] at h
    split at h
    · exact ih c h
    · next hpa =>
      simp only [List.head?_cons, Option.some.injEq] at h
      subst h
      exact Bool.eq_false_iff.mpr hpa

theorem dropWhile_of_head_not (p : Char → Bool) (l : Str)
    (h : ∀ c, l.head? = some c → p c = false) : l.dropWhile p = l := by
  cases l with
  | nil => rfl
  | cons a t =>
    rw [List.dropWhile_cons, h a rfl]
    simp

theorem trimEnd_head? (l : Str) (c : Char) (h : (trimEnd l).head? = some c) :
    l.head? = some c := by
  cases l with
  | nil => cases h
  | cons a t =>
    rw [trimEnd] at h
    split at h
    · split at h
      · cases h
      · simp only [List.head?_cons, Option.some.injEq] at h ⊢
        exact h
    · simp only [List.head?_cons, Option.some.injEq] at h ⊢
      exact h

theorem trimEnd_getLast? (l : Str) :
    trimEnd l = [] ∨ ∃ c, (trimEnd l).getLast? = some c ∧ isRustWs c = false := by
  induction l with
  | nil => exact Or.inl rfl
  | cons a t ih =>
    rcases ih with h | ⟨c, hc, hw⟩
    · rw [trimEnd, h]
      by_cases hwa : isRustWs a
      · rw [if_pos hwa]
        exact Or.inl rfl
      · rw [if_neg hwa]
        exact Or.inr ⟨a, rfl, Bool.eq_false_iff.mpr hwa⟩
    · have hne : trimEnd t ≠ [] := by
        intro he
        rw [he] at hc
        cases hc
      rw [trimEnd]
      cases ht : trimEnd t with
      | nil => exact absurd ht hne
      | cons x xs =>
        rw [ht] at hc
        refine Or.inr ⟨c, ?_, hw⟩
        rw [List.getLast?_cons_cons]
        exact hc

theorem trimEnd_eq_self (l : Str)
    (h : ∀ c, l.getLast? = some c → isRustWs c = false) : trimEnd l = l := by
  induction l with
  | nil => rfl
  | cons a t ih =>
    cases t with
    | nil =>
      rw [trimEnd, trimEnd, h a rfl]
      simp
    | cons b t2 =>
      have hrec : trimEnd (b :: t2) = b :: t2 :=
        ih (fun c hc => h c (by rw [List.getLast?_cons_cons]; exact hc))
      rw [trimEnd, hrec]

theorem trimEnd_trimEnd (l : Str) : trimEnd (trimEnd l) = trimEnd l := by
  rcases trimEnd_getLast? l with h | ⟨c, hc, hw⟩
  · rw [h]
    rfl
  · exact trimEnd_eq_self _ (fun d hd => by
      rw [hc] at hd
      cases hd
      exact hw)

theorem trim_trim (s : Str) : trim (trim s) = trim s := by
  unfold trim
  have hu : ∀ c, (trimStart s).head? = some c → isRustWs c = false :=
    dropWhile_head_not isRustWs s
  have hte : ∀ c, (trimEnd (trimStart s)).head? = some c → isRustWs c = false :=
    fun c hc => hu c (trimEnd_head? (trimStart s) c hc)
  unfold trimStart
  rw [dropWhile_of_head_not isRustWs (trimEnd (List.dropWhile isRustWs s)) hte]
  exact trimEnd_trimEnd _

theorem ite_isEmpty_ne_nil (b : List Str) (t : Str) :
    (if b.isEmpty then [t] else b) ≠ [] := by
  split
  · simp
  · next h => exact fun he => h (by simp [he])

theorem split_bundle_ne_nil (text : Str) (mode : BundleMode) (cfg : Config) :
    (split_bundle text mode cfg).1 ≠ [] := by
  have hint : ∀ strict, (split_bundle_internal text cfg strict).1 ≠ [] := by
    intro strict
    simp only [split_bundle_internal]
    by_cases h1 : (split_on_delimiters text cfg.bundle.delimiters).length ≤ 1
    · rw [if_pos h1]
      by_cases h2 : (split_on_dates text).length ≤ 1
      · rw [if_pos h2]
        simp
      · rw [if_neg h2]
        show split_on_dates text ≠ []
        exact fun he => h2 (by simp [he])
    · rw [if_neg h1, if_neg h1]
      show split_on_delimiters text cfg.bundle.delimiters ≠ []
      exact fun he => h1 (by simp [he])
  cases mode
  · exact hint false
  · exact hint true
  · simp [split_bundle]

theorem buildNotesFrom_length (fmt : NoteFormat) (cfg : Config) (src : Option Str)
    (opts : ParseOptions) (now tv : Str) (bw : List ParseWarning) (off : Nat) :
    ∀ (i : Nat) (ts : List Str),
      (buildNotesFrom fmt cfg src opts now tv bw off i ts).length = ts.length := by
  intro i ts
  induction ts generalizing i with
  | nil => rfl
  | cons t ts ih => simp [buildNotesFrom, ih]

/-- Claim C3: parsing is total — `parse_notes` returns at least one
`StructuredNote` for every input, configuration and options — and in the
worst case (the heading scan and the fallback heuristics both find
nothing), the parsed note consists of a single `"Narrative"` section whose
candidate spans the whole input (lines 1 through `max #lines 1`) and whose
content is the trimmed full text. -/
theorem C3_parse_total (text : Str) (fmt : NoteFormat) (cfg : Config)
    (src : Option Str) (note_offset idx : Nat) (opts : ParseOptions) (now tv : Str) :
    1 ≤ (parse_notes text fmt cfg src note_offset opts now tv).length ∧
    (scan_headings (rlines (normalize_text text)) cfg = [] →
     fallback_headings (rlines (normalize_text text)) cfg = [] →
     (extract_candidates text fmt cfg opts).1
        = [mkNarrativeCandidate (rlines (normalize_text text))] ∧
     (parse_note text fmt cfg src idx opts now tv).sections
        = [⟨str "Narrative", trim (joinLines (rlines (normalize_text text))), 0.4⟩]) := by
  constructor
  · simp only [parse_notes]
    rw [buildNotesFrom_length]
    exact List.length_pos.mpr (split_bundle_ne_nil text cfg.bundle.mode_default cfg)
  · intro h1 h2
    have hec : (extract_candidates text fmt cfg opts).1
        = [mkNarrativeCandidate (rlines (normalize_text text))] := by
      simp [extract_candidates, extract_sections, effectiveHeadings, h1, h2, ite_self]
    refine ⟨hec, ?_⟩
    simp only [parse_note]
    rw [hec]
    simp [build_note, mkNarrativeCandidate, trim_trim]

/-- Claim C3, witness: the input `"just plain prose"` has no detectable or
fallback headings, and parses to a single Narrative section. -/
theorem C3_parse_total_witness :
    scan_headings (rlines (normalize_text (str "just plain prose"))) Config.default = [] ∧
    fallback_headings (rlines (normalize_text (str "just plain prose"))) Config.default = [] ∧
    (parse_note (str "just plain prose") NoteFormat.soap Config.default none 1
        ⟨true⟩ (str "T") (str "0.1.0")).sections
      = [⟨str "Narrative",
          trim (joinLines (rlines (normalize_text (str "just plain prose")))), 0.4⟩] :=
  ⟨by decide, by decide,
   ((C3_parse_total (str "just plain prose") NoteFormat.soap Config.default none 0 1
      ⟨true⟩ (str "T") (str "0.1.0")).2 (by decide) (by decide)).2⟩

/-! ## Claims C5 and C6: the normalizer -/

theorem hasSeg_cons (pat : Str) (c : Char) (t : Str) :
    hasSeg pat (c :: t) ↔ (∃ b, c :: t = pat ++ b) ∨ hasSeg pat t := by
  constructor
  · rintro ⟨a, b, hab⟩
    cases a with
    | nil => exact Or.inl ⟨b, by simpa using hab⟩
    | cons x xs =>
      refine Or.inr ⟨xs, b, ?_⟩
      simpa using congrArg List.tail hab
  · rintro (⟨b, hb⟩ | ⟨a, b, hab⟩)
    · exact ⟨[], b, by simpa using hb⟩
    · exact ⟨c :: a, b, by simp [hab]⟩

theorem hasSeg_length {pat s : Str} (h : hasSeg pat s) : pat.length ≤ s.length := by
  obtain ⟨a, b, hab⟩ := h
  rw [hab]
  simp
  omega

theorem replaceStarSpace_head_space (d : Char) (rest : Str)
    (h : (replaceStarSpace (d :: rest)).head? = some ' ') : d = ' ' := by
  cases rest with
  | nil => simpa [replaceStarSpace] using h
  | cons r rs =>
    rw [replaceStarSpace] at h
    split at h
    · simp at h
    · simpa using h

theorem replaceStarSpace_no_seg (s : Str) :
    ¬ hasSeg (str "* ") (replaceStarSpace s) := by
  induction s using replaceStarSpace.induct with
  | case1 =>
    intro h
    have := hasSeg_length h
    simp [str, replaceStarSpace] at this
  | case2 c =>
    intro h
    have := hasSeg_length h
    simp [str, replaceStarSpace] at this
  | case3 c d rest hcd ih =>
    rw [replaceStarSpace, if_pos hcd]
    intro h
    rcases (hasSeg_cons _ _ _).mp h with ⟨b, hb⟩ | h2
    · rw [show str "* " = '*' :: [' '] from rfl] at hb
      simp at hb
    · rcases (hasSeg_cons _ _ _).mp h2 with ⟨b, hb⟩ | h3
      · rw [show str "* " = '*' :: [' '] from rfl] at hb
        simp at hb
      · exact ih h3
  | case4 c d rest hcd ih =>
    rw [replaceStarSpace, if_neg hcd]
    intro h
    rcases (hasSeg_cons _ _ _).mp h with ⟨b, hb⟩ | h2
    · rw [show str "* " = '*' :: [' '] from rfl] at hb
      rw [List.cons_append, List.cons.injEq] at hb
      have hd : d = ' ' :=
        replaceStarSpace_head_space d rest (by rw [hb.2]; rfl)
      exact hcd ⟨hb.1, hd⟩
    · exact ih h2

theorem replaceStarSpace_of_no_seg (s : Str) (h : ¬ hasSeg (str "* ") s) :
    replaceStarSpace s = s := by
  induction s using replaceStarSpace.induct with
  | case1 => rfl
  | case2 c => rfl
  | case3 c d rest hcd ih =>
    exact absurd ⟨[], rest, by simp [str, hcd.1, hcd.2]⟩ h
  | case4 c d rest hcd ih =>
    rw [replaceStarSpace, if_neg hcd, ih]
    intro h2
    exact h ((hasSeg_cons _ _ _).mpr (Or.inr h2))

theorem replaceStarSpace_mem (s : Str) :
    ∀ c ∈ replaceStarSpace s, c ∈ s ∨ c = '-' ∨ c = ' ' := by
  induction s using replaceStarSpace.induct with
  | case1 => intro c hc; cases hc
  | case2 c => intro e he; simp [replaceStarSpace] at he; simp [he]
  | case3 c d rest hcd ih =>
    intro e he
    rw [replaceStarSpace, if_pos hcd] at he
    simp only [List.mem_cons] at he
    rcases he with he | he | he
    · simp [he]
    · simp [he]
    · rcases ih e he with h | h
      · exact Or.inl (List.mem_cons_of_mem c (List.mem_cons_of_mem d h))
      · exact Or.inr h
  | case4 c d rest hcd ih =>
    intro e he
    rw [replaceStarSpace, if_neg hcd] at he
    simp only [List.mem_cons] at he
    rcases he with he | he
    · simp [he]
    · rcases ih e he with h | h
      · exact Or.inl (List.mem_cons_of_mem c h)
      · exact Or.inr h

theorem replaceStarSpace_ne_nil (s : Str) (h : s ≠ []) :
    replaceStarSpace s ≠ [] := by
  induction s using replaceStarSpace.induct with
  | case1 => exact absurd rfl h
  | case2 c => simp [replaceStarSpace]
  | case3 c d rest hcd ih => rw [replaceStarSpace, if_pos hcd]; simp
  | case4 c d rest hcd ih => rw [replaceStarSpace, if_neg hcd]; simp

theorem getLast?_cons_of_ne_nil {α : Type} (a : α) (l : List α) (h : l ≠ []) :
    (a :: l).getLast? = l.getLast? := by
  cases l with
  | nil => exact absurd rfl h
  | cons b t => exact List.getLast?_cons_cons

theorem replaceStarSpace_getLast (s : Str)
    (h : ∃ c, s.getLast? = some c ∧ isRustWs c = false) :
    ∃ c, (replaceStarSpace s).getLast? = some c ∧ isRustWs c = false := by
  induction s using replaceStarSpace.induct with
  | case1 =>
    obtain ⟨c, hc, _⟩ := h
    cases hc
  | case2 c => exact h
  | case3 c d rest hcd ih =>
    rw [replaceStarSpace, if_pos hcd]
    cases hrest : rest with
    | nil =>
      obtain ⟨e, he, hw⟩ := h
      rw [hrest, hcd.2] at he
      rw [List.getLast?_cons_cons, List.getLast?_singleton] at he
      rw [(Option.some.inj he).symm] at hw
      simp [isRustWs] at hw
    | cons r rs =>
      subst hrest
      have hrne : (r :: rs : Str) ≠ [] := by simp
      have hh : ∃ e, (r :: rs : Str).getLast? = some e ∧ isRustWs e = false := by
        obtain ⟨e, he, hw⟩ := h
        rw [List.getLast?_cons_cons, List.getLast?_cons_cons] at he
        exact ⟨e, he, hw⟩
      obtain ⟨e, he, hw⟩ := ih hh
      refine ⟨e, ?_, hw⟩
      have hrn : replaceStarSpace (r :: rs) ≠ [] := replaceStarSpace_ne_nil _ hrne
      rw [getLast?_cons_of_ne_nil '-' _ (by simp),
        getLast?_cons_of_ne_nil ' ' _ hrn]
      exact he
  | case4 c d rest hcd ih =>
    rw [replaceStarSpace, if_neg hcd]
    have hh : ∃ e, (d :: rest : Str).getLast? = some e ∧ isRustWs e = false := by
      obtain ⟨e, he, hw⟩ := h
      rw [List.getLast?_cons_cons] at he
      exact ⟨e, he, hw⟩
    obtain ⟨e, he, hw⟩ := ih hh
    refine ⟨e, ?_, hw⟩
    rw [getLast?_cons_of_ne_nil c _ (replaceStarSpace_ne_nil _ (by simp))]
    exact he

theorem replaceCrLf_eq_self (s : Str) (h : ∀ c ∈ s, c ≠ '\r') :
    replaceCrLf s = s := by
  induction s using replaceCrLf.induct with
  | case1 => rfl
  | case2 c => rfl
  | case3 c d rest hcd ih =>
    exact absurd hcd.1 (h c (List.mem_cons_self c _))
  | case4 c d rest hcd ih =>
    rw [replaceCrLf, if_neg hcd,
      ih (fun e he => h e (List.mem_cons_of_mem c he))]

theorem getLast?_map {α β : Type} (f : α → β) (l : List α) :
    (l.map f).getLast? = l.getLast?.map f := by
  induction l with
  | nil => rfl
  | cons a t ih =>
    cases t with
    | nil => rfl
    | cons b t2 =>
      rw [List.map_cons, List.map_cons, List.getLast?_cons_cons, ← List.map_cons, ih,
        List.getLast?_cons_cons]

theorem replaceChar_mem (ch d : Char) (s : Str) :
    ∀ c ∈ replaceChar ch d s, c = d ∨ (c ∈ s ∧ c ≠ ch) := by
  intro c hc
  rw [replaceChar, List.mem_map] at hc
  obtain ⟨x, hx, he⟩ := hc
  by_cases hxc : x = ch
  · rw [if_pos hxc] at he
    exact Or.inl he.symm
  · rw [if_neg hxc] at he
    exact Or.inr ⟨he ▸ hx, he ▸ hxc⟩

theorem replaceChar_eq_self (ch d : Char) (s : Str) (h : ∀ c ∈ s, c ≠ ch) :
    replaceChar ch d s = s :=
  map_eq_self_of_mem _ s (fun c hc => if_neg (h c hc))

theorem splitNl_ne_nil (s : Str) : splitNl s ≠ [] := by
  cases s with
  | nil => simp [splitNl]
  | cons c rest =>
    cases h : splitNl rest with
    | nil => simp [splitNl, h]
    | cons q qs =>
      simp only [splitNl, h]
      split <;> simp

theorem splitNl_no_newline (s : Str) : ∀ p ∈ splitNl s, ∀ c ∈ p, c ≠ '\n' := by
  induction s with
  | nil =>
    intro p hp c hc
    simp only [splitNl, List.mem_singleton] at hp
    subst hp
    cases hc
  | cons a rest ih =>
    intro p hp c hc
    cases h : splitNl rest with
    | nil => exact absurd h (splitNl_ne_nil rest)
    | cons q qs =>
      simp only [splitNl, h] at hp
      by_cases ha : a = '\n'
      · rw [if_pos ha] at hp
        rcases List.mem_cons.mp hp with rfl | hp2
        · cases hc
        · exact ih p (by rw [h]; exact hp2) c hc
      · rw [if_neg ha] at hp
        rcases List.mem_cons.mp hp with rfl | hp2
        · rcases List.mem_cons.mp hc with rfl | hc2
          · exact ha
          · exact ih q (by rw [h]; exact List.mem_cons_self q qs) c hc2
        · exact ih p (by rw [h]; exact List.mem_cons_of_mem q hp2) c hc

theorem joinLines_mem (ls : List Str) :
    ∀ c ∈ joinLines ls, c = '\n' ∨ ∃ l ∈ ls, c ∈ l := by
  induction ls with
  | nil => intro c hc; cases hc
  | cons l ls ih =>
    cases ls with
    | nil =>
      intro c hc
      exact Or.inr ⟨l, List.mem_singleton_self l, hc⟩
    | cons l2 ls2 =>
      intro c hc
      have hc2 : c ∈ l ++ '\n' :: joinLines (l2 :: ls2) := hc
      rcases List.mem_append.mp hc2 with hc | hc
      · exact Or.inr ⟨l, List.mem_cons_self l _, hc⟩
      · rcases List.mem_cons.mp hc with rfl | hc2
        · exact Or.inl rfl
        · rcases ih c hc2 with h | ⟨l3, hl3, hc3⟩
          · exact Or.inl h
          · exact Or.inr ⟨l3, List.mem_cons_of_mem l hl3, hc3⟩

theorem splitNl_no_newline_self (l : Str) (h : ∀ c ∈ l, c ≠ '\n') :
    splitNl l = [l] := by
  induction l with
  | nil => rfl
  | cons a l2 ih =>
    have h2 := ih (fun c hc => h c (List.mem_cons_of_mem a hc))
    simp [splitNl, h2, h a (List.mem_cons_self a l2)]

theorem splitNl_append_newline (l t : Str) (h : ∀ c ∈ l, c ≠ '\n') :
    splitNl (l ++ '\n' :: t) = l :: splitNl t := by
  induction l with
  | nil =>
    cases ht : splitNl t with
    | nil => exact absurd ht (splitNl_ne_nil t)
    | cons q qs => simp [splitNl, ht]
  | cons a l2 ih =>
    have h2 := ih (fun c hc => h c (List.mem_cons_of_mem a hc))
    simp [splitNl, h2, h a (List.mem_cons_self a l2)]

theorem splitNl_joinLines (ls : List Str) (hne : ls ≠ [])
    (hnl : ∀ p ∈ ls, ∀ c ∈ p, c ≠ '\n') : splitNl (joinLines ls) = ls := by
  induction ls with
  | nil => exact absurd rfl hne
  | cons l ls ih =>
    cases ls with
    | nil =>
      show splitNl l = [l]
      exact splitNl_no_newline_self l (hnl l (List.mem_singleton_self l))
    | cons l2 ls2 =>
      show splitNl (l ++ '\n' :: joinLines (l2 :: ls2)) = l :: l2 :: ls2
      rw [splitNl_append_newline l _ (hnl l (List.mem_cons_self l _)),
        ih (by simp) (fun p hp => hnl p (List.mem_cons_of_mem l hp))]

theorem dropLast_append_of_getLast? {α : Type} (l : List α) (a : α)
    (h : l.getLast? = some a) : l.dropLast ++ [a] = l := by
  induction l with
  | nil => cases h
  | cons x t ih =>
    cases t with
    | nil =>
      simp only [List.getLast?_singleton, Option.some.injEq] at h
      rw [← h]
      rfl
    | cons y t2 =>
      rw [List.getLast?_cons_cons] at h
      have := ih h
      simp only [List.dropLast_cons₂, List.cons_append]
      rw [this]

theorem rlines_joinLines (ls : List Str) (hne : ls ≠ [])
    (hnl : ∀ p ∈ ls, ∀ c ∈ p, c ≠ '\n')
    (hcr : ∀ p ∈ ls, p.getLast? ≠ some '\r')
    (hlast : ls.getLast? ≠ some []) :
    rlines (joinLines ls) = ls := by
  simp only [rlines]
  rw [splitNl_joinLines ls hne hnl]
  have hstrip : ∀ p ∈ ls.dropLast, stripCr p = p := by
    intro p hp
    unfold stripCr
    rw [if_neg (hcr p ((List.dropLast_sublist ls).subset hp))]
  rw [map_eq_self_of_mem stripCr ls.dropLast hstrip]
  cases hl : ls.getLast? with
  | none => exact absurd (List.getLast?_eq_none_iff.mp hl) hne
  | some last =>
    have hlne : ¬ last.isEmpty := by
      intro hh
      exact hlast (by rw [hl, List.isEmpty_iff.mp hh])
    simp only [hlne, Bool.false_eq_true, if_false]
    exact dropLast_append_of_getLast? ls last hl

theorem mem_of_getLast? {α : Type} {l : List α} {a : α}
    (h : l.getLast? = some a) : a ∈ l := by
  induction l with
  | nil => cases h
  | cons x t ih =>
    cases t with
    | nil =>
      simp only [List.getLast?_singleton, Option.some.injEq] at h
      simp [h]
    | cons y t2 =>
      rw [List.getLast?_cons_cons] at h
      exact List.mem_cons_of_mem x (ih h)

theorem stripCr_subset (l : Str) : ∀ c ∈ stripCr l, c ∈ l := by
  intro c hc
  unfold stripCr at hc
  split at hc
  · exact (List.dropLast_sublist l).subset hc
  · exact hc

theorem splitNl_subset (s : Str) : ∀ p ∈ splitNl s, ∀ c ∈ p, c ∈ s := by
  induction s with
  | nil =>
    intro p hp c hc
    simp only [splitNl, List.mem_singleton] at hp
    subst hp
    cases hc
  | cons a rest ih =>
    intro p hp c hc
    cases h : splitNl rest with
    | nil => exact absurd h (splitNl_ne_nil rest)
    | cons q qs =>
      simp only [splitNl, h] at hp
      by_cases ha : a = '\n'
      · rw [if_pos ha] at hp
        rcases List.mem_cons.mp hp with rfl | hp2
        · cases hc
        · exact List.mem_cons_of_mem a (ih p (by rw [h]; exact hp2) c hc)
      · rw [if_neg ha] at hp
        rcases List.mem_cons.mp hp with rfl | hp2
        · rcases List.mem_cons.mp hc with rfl | hc2
          · exact List.mem_cons_self c rest
          · exact List.mem_cons_of_mem a
              (ih q (by rw [h]; exact List.mem_cons_self q qs) c hc2)
        · exact List.mem_cons_of_mem a
            (ih p (by rw [h]; exact List.mem_cons_of_mem q hp2) c hc)

theorem rlines_mem_cases (s : Str) :
    ∀ p ∈ rlines s, ∃ q ∈ splitNl s, ∀ c ∈ p, c ∈ q := by
  intro p hp
  simp only [rlines] at hp
  rcases List.mem_append.mp hp with hp | hp
  · rw [List.mem_map] at hp
    obtain ⟨q, hq, he⟩ := hp
    exact ⟨q, (List.dropLast_sublist _).subset hq,
      fun c hc => stripCr_subset q c (he ▸ hc)⟩
  · cases hl : (splitNl s).getLast? with
    | none => rw [hl] at hp; cases hp
    | some last =>
      rw [hl] at hp
      have hp2 : p ∈ (if last.isEmpty then [] else [last] : List Str) := hp
      by_cases he : last.isEmpty
      · rw [if_pos he] at hp2
        cases hp2
      · rw [if_neg he] at hp2
        simp only [List.mem_singleton] at hp2
        subst hp2
        exact ⟨p, mem_of_getLast? hl, fun c hc => hc⟩

theorem rlines_no_newline (s : Str) : ∀ p ∈ rlines s, ∀ c ∈ p, c ≠ '\n' := by
  intro p hp c hc
  obtain ⟨q, hq, hsub⟩ := rlines_mem_cases s p hp
  exact splitNl_no_newline s q hq c (hsub c hc)

theorem rlines_subset (s : Str) : ∀ p ∈ rlines s, ∀ c ∈ p, c ∈ s := by
  intro p hp c hc
  obtain ⟨q, hq, hsub⟩ := rlines_mem_cases s p hp
  exact splitNl_subset s q hq c (hsub c hc)

theorem trimEnd_subset (l : Str) : ∀ c ∈ trimEnd l, c ∈ l := by
  induction l with
  | nil => intro c hc; cases hc
  | cons a t ih =>
    intro c hc
    cases ht : trimEnd t with
    | nil =>
      simp only [trimEnd, ht] at hc
      split at hc
      · cases hc
      · simp only [List.mem_singleton] at hc
        simp [hc]
    | cons r rs =>
      simp only [trimEnd, ht] at hc
      rcases List.mem_cons.mp hc with rfl | hc2
      · exact List.mem_cons_self _ _
      · exact List.mem_cons_of_mem a (ih c (by rw [ht]; exact hc2))

theorem fixupText_no_cr (x : Str) : ∀ c ∈ fixupText x, c ≠ '\r' := by
  intro c hc
  unfold fixupText at hc
  rcases replaceChar_mem '\t' ' ' _ c hc with rfl | ⟨hc2, _⟩
  · decide
  · rcases replaceChar_mem '\r' '\n' _ c hc2 with rfl | ⟨_, h⟩
    · decide
    · exact h

theorem fixupText_no_tab (x : Str) : ∀ c ∈ fixupText x, c ≠ '\t' := by
  intro c hc
  unfold fixupText at hc
  rcases replaceChar_mem '\t' ' ' _ c hc with rfl | ⟨_, h⟩
  · decide
  · exact h

theorem normLine_mem (l : Str) :
    ∀ c ∈ normLine l, (c ∈ l ∧ c ≠ '•') ∨ c = '-' ∨ c = ' ' := by
  intro c hc
  unfold normLine at hc
  rcases replaceStarSpace_mem _ c hc with h | h | h
  · rcases replaceChar_mem '•' '-' (trimEnd l) c h with h2 | ⟨h2, h3⟩
    · exact Or.inr (Or.inl h2)
    · exact Or.inl ⟨trimEnd_subset l c h2, h3⟩
  · exact Or.inr (Or.inl h)
  · exact Or.inr (Or.inr h)

theorem normLine_ends_ok (l : Str) :
    normLine l = [] ∨
      ∃ c, (normLine l).getLast? = some c ∧ isRustWs c = false := by
  rcases trimEnd_getLast? l with h | ⟨c, hc, hw⟩
  · left
    unfold normLine
    rw [h]
    rfl
  · right
    apply replaceStarSpace_getLast
    refine ⟨if c = '•' then '-' else c, ?_, ?_⟩
    · rw [replaceChar, getLast?_map, hc]
      rfl
    · by_cases hcb : c = '•'
      · rw [if_pos hcb]
        decide
      · rw [if_neg hcb]
        exact hw

theorem trimEnd_normLine (l : Str) : trimEnd (normLine l) = normLine l := by
  rcases normLine_ends_ok l with h | ⟨c, hc, hw⟩
  · rw [h]
    rfl
  · exact trimEnd_eq_self _ (fun d hd => by
      rw [hc] at hd
      cases hd
      exact hw)

theorem normLine_normLine (l : Str) : normLine (normLine l) = normLine l := by
  have h2 : replaceChar '•' '-' (normLine l) = normLine l := by
    apply replaceChar_eq_self
    intro c hc
    rcases normLine_mem l c hc with ⟨_, h⟩ | h | h
    · exact h
    · rw [h]; decide
    · rw [h]; decide
  have h3 : replaceStarSpace (normLine l) = normLine l := by
    apply replaceStarSpace_of_no_seg
    unfold normLine
    exact replaceStarSpace_no_seg _
  show replaceStarSpace (replaceChar '•' '-' (trimEnd (normLine l))) = normLine l
  rw [trimEnd_normLine, h2, h3]

/-- The lines produced by `normalize_text` (the per-line images of the
split canonicalized input) contain no `\n`, `\r` or `\t`, are fixpoints of
the per-line transformation, and contain no `"* "` segment. -/
theorem normalizedLines_facts (x : Str) :
    (∀ l ∈ (rlines (fixupText x)).map normLine,
      (∀ c ∈ l, c ≠ '\n' ∧ c ≠ '\r' ∧ c ≠ '\t') ∧ normLine l = l ∧
        l.getLast? ≠ some '\r' ∧ ¬ hasSeg (str "* ") l) := by
  intro l hl
  rw [List.mem_map] at hl
  obtain ⟨p, hp, rfl⟩ := hl
  have hchars : ∀ c ∈ normLine p, c ≠ '\n' ∧ c ≠ '\r' ∧ c ≠ '\t' := by
    intro c hc
    rcases normLine_mem p c hc with ⟨hcp, _⟩ | h | h
    · exact ⟨rlines_no_newline (fixupText x) p hp c hcp,
        fixupText_no_cr x c (rlines_subset (fixupText x) p hp c hcp),
        fixupText_no_tab x c (rlines_subset (fixupText x) p hp c hcp)⟩
    · rw [h]; refine ⟨by decide, by decide, by decide⟩
    · rw [h]; refine ⟨by decide, by decide, by decide⟩
  refine ⟨hchars, normLine_normLine p, ?_, ?_⟩
  · intro hcontra
    exact (hchars '\r' (mem_of_getLast? hcontra)).2.1 rfl
  · unfold normLine
    exact replaceStarSpace_no_seg _

/-- Claim C5, counterexample: normalization is not idempotent on inputs
whose final line is blank — `"a\n\n"` normalizes to `"a\n"`, which
normalizes further to `"a"`. -/
theorem C5_counterexample :
    normalize_text (normalize_text (str "a\n\n")) ≠ normalize_text (str "a\n\n") := by
  decide

/-- Claim C5 (amended): `normalize_text` is idempotent on every input whose
normalized line list does not end in an empty line (equivalently, whose
final canonicalized line is not whitespace-only); a trailing blank line is
dropped by a second application. -/
theorem C5_normalize_idempotent (x : Str)
    (h : ((rlines (fixupText x)).map normLine).getLast? ≠ some []) :
    normalize_text (normalize_text x) = normalize_text x := by
  by_cases hnil : rlines (fixupText x) = []
  · have hx : normalize_text x = [] := by
      show joinLines ((rlines (fixupText x)).map normLine) = []
      rw [hnil]
      rfl
    rw [hx]
    rfl
  · have hlsne : (rlines (fixupText x)).map normLine ≠ [] := by
      intro hh
      exact hnil (List.map_eq_nil_iff.mp hh)
    have hfacts := normalizedLines_facts x
    have hnlin : ∀ l ∈ (rlines (fixupText x)).map normLine, ∀ c ∈ l, c ≠ '\n' :=
      fun l hl c hc => ((hfacts l hl).1 c hc).1
    have hcr : ∀ l ∈ (rlines (fixupText x)).map normLine, l.getLast? ≠ some '\r' :=
      fun l hl => (hfacts l hl).2.2.1
    have hjoin_chars : ∀ c ∈ joinLines ((rlines (fixupText x)).map normLine),
        c ≠ '\r' ∧ c ≠ '\t' := by
      intro c hc
      rcases joinLines_mem _ c hc with rfl | ⟨l, hl, hcl⟩
      · exact ⟨by decide, by decide⟩
      · exact ⟨((hfacts l hl).1 c hcl).2.1, ((hfacts l hl).1 c hcl).2.2⟩
    have hfix : fixupText (joinLines ((rlines (fixupText x)).map normLine))
        = joinLines ((rlines (fixupText x)).map normLine) := by
      show replaceChar '\t' ' ' (replaceChar '\r' '\n'
          (replaceCrLf (joinLines ((rlines (fixupText x)).map normLine))))
        = joinLines ((rlines (fixupText x)).map normLine)
      rw [replaceCrLf_eq_self _ (fun c hc => (hjoin_chars c hc).1),
        replaceChar_eq_self _ _ _ (fun c hc => (hjoin_chars c hc).1),
        replaceChar_eq_self _ _ _ (fun c hc => (hjoin_chars c hc).2)]
    have hrl := rlines_joinLines _ hlsne hnlin hcr h
    calc normalize_text (normalize_text x)
        = joinLines ((rlines (fixupText
            (joinLines ((rlines (fixupText x)).map normLine)))).map normLine) := rfl
      _ = joinLines ((rlines
            (joinLines ((rlines (fixupText x)).map normLine))).map normLine) := by
          rw [hfix]
      _ = joinLines (((rlines (fixupText x)).map normLine).map normLine) := by
          rw [hrl]
      _ = joinLines ((rlines (fixupText x)).map normLine) := by
          rw [map_eq_self_of_mem normLine _ (fun l hl => (hfacts l hl).2.1)]
      _ = normalize_text x := rfl

/-- Claim C5, witness: the amended idempotence applied to `"a\nb"`. -/
theorem C5_normalize_idempotent_witness :
    ((rlines (fixupText (str "a\nb"))).map normLine).getLast? ≠ some [] ∧
    normalize_text (normalize_text (str "a\nb")) = normalize_text (str "a\nb") :=
  ⟨by decide, C5_normalize_idempotent (str "a\nb") (by decide)⟩

/-- Claim C6, counterexample: the `"* "` → `"- "` substitution applies in
the middle of a line (`"a * b"` becomes `"a - b"`), and the line count is
not preserved when the input ends in a blank line (`"x\n\n"` has two lines,
its normalization `"x\n"` has one). -/
theorem C6_counterexample :
    normalize_text (str "a * b") = str "a - b" ∧
    (rlines (normalize_text (str "x\n\n"))).length ≠ (rlines (str "x\n\n")).length := by
  constructor
  · decide
  · decide

/-- Claim C6 (amended): `normalize_text` maps each line of the CR/LF- and
tab-canonicalized input through the fixed per-line transformation
`normLine`, so for inputs whose normalized line list does not end in an
empty line the line count is preserved; and the `"* "` → `"- "`
substitution is exhaustive — no output line contains `"* "` anywhere. -/
theorem C6_normalize_per_line (x : Str)
    (h : ((rlines (fixupText x)).map normLine).getLast? ≠ some []) :
    rlines (normalize_text x) = (rlines (fixupText x)).map normLine ∧
    (rlines (normalize_text x)).length = (rlines (fixupText x)).length ∧
    ∀ l ∈ rlines (normalize_text x), ¬ hasSeg (str "* ") l := by
  by_cases hnil : rlines (fixupText x) = []
  · have hx : normalize_text x = [] := by
      show joinLines ((rlines (fixupText x)).map normLine) = []
      rw [hnil]
      rfl
    rw [hx, hnil]
    refine ⟨rfl, rfl, ?_⟩
    intro l hl
    have hl2 : l ∈ ([] : List Str) := hl
    cases hl2
  · have hfacts := normalizedLines_facts x
    have first : rlines (normalize_text x) = (rlines (fixupText x)).map normLine := by
      show rlines (joinLines ((rlines (fixupText x)).map normLine))
        = (rlines (fixupText x)).map normLine
      exact rlines_joinLines _ (fun hh => hnil (List.map_eq_nil_iff.mp hh))
        (fun l hl c hc => ((hfacts l hl).1 c hc).1)
        (fun l hl => (hfacts l hl).2.2.1) h
    refine ⟨first, by rw [first, List.length_map], ?_⟩
    rw [first]
    intro l hl
    exact (hfacts l hl).2.2.2

/-- Claim C6, witness: the amended per-line description applied to
`"a * b"`. -/
theorem C6_normalize_per_line_witness :
    ((rlines (fixupText (str "a * b"))).map normLine).getLast? ≠ some [] ∧
    (rlines (normalize_text (str "a * b")) = (rlines (fixupText (str "a * b"))).map normLine ∧
     (rlines (normalize_text (str "a * b"))).length
        = (rlines (fixupText (str "a * b"))).length ∧
     ∀ l ∈ rlines (normalize_text (str "a * b")), ¬ hasSeg (str "* ") l) :=
  ⟨by decide, C6_normalize_per_line (str "a * b") (by decide)⟩

/-! ## Claim C10: candidate names and Narrative-last ordering -/

theorem map_heading_name (heading : Str) (order : List Str) :
    (map_heading heading order).1 ∈ order ∨ (map_heading heading order).1 = str "Narrative" := by
  unfold map_heading
  cases hf : order.find?
      (fun name => decide (normalize_heading_key name = normalize_heading_key heading)) with
  | some nm => exact Or.inl (List.mem_of_find?_eq_some hf)
  | none => exact Or.inr rfl

theorem buildCandidates_name (lines : List Str) (order : List Str) (bound : Nat) (conf : ℚ) :
    ∀ hs, ∀ pb ∈ buildCandidates lines order bound conf hs,
      pb.1.name ∈ order ∨ pb.1.name = str "Narrative" := by
  intro hs
  induction hs with
  | nil => intro pb hpb; cases hpb
  | cons hd tl ih =>
    intro pb hpb
    simp only [buildCandidates] at hpb
    rcases List.mem_cons.mp hpb with rfl | hpb2
    · exact map_heading_name hd.heading order
    · exact ih pb hpb2

/-- Among the canonical `SectionName` spellings, only `"Narrative"` itself
has the normalized key `NARRATIVE`. -/
theorem sectionName_key_narrative (s : SectionName)
    (h : normalize_heading_key s.asStr = normalize_heading_key (str "Narrative")) :
    s.asStr = str "Narrative" := by
  revert h
  cases s <;> decide

theorem flatMap_nil_of {α β : Type} (l : List α) (f : α → List β)
    (h : ∀ a ∈ l, f a = []) : l.flatMap f = [] := by
  induction l with
  | nil => rfl
  | cons a t ih =>
    rw [List.flatMap_cons, h a (List.mem_cons_self a t), List.nil_append,
      ih (fun x hx => h x (List.mem_cons_of_mem a hx))]

/-- Claim C10: every candidate returned by `extract_sections` is named by
one of the template's section-order names or `"Narrative"`, and the
returned list splits as `A ++ B` where every candidate of `A` carries a
template section-order name — with `A` grouped by the template's declared
order (all candidates matching order position 1, then 2, …) — and every
candidate of `B` is a `"Narrative"` candidate. -/
theorem C10_extract_sections_order (lines : List Str) (headings_found : List HeadingLine)
    (fmt : NoteFormat) (cfg : Config) (heur : Bool) :
    ∃ A B, (extract_sections lines headings_found fmt cfg heur).1 = A ++ B ∧
      (∀ c ∈ A, c.name ∈ cfg.section_order fmt) ∧
      (∀ c ∈ B, c.name = str "Narrative") ∧
      (∀ c ∈ (extract_sections lines headings_found fmt cfg heur).1,
        c.name ∈ cfg.section_order fmt ∨ c.name = str "Narrative") ∧
      (∃ cands : List SectionCandidate,
        A = (cfg.section_order fmt).flatMap (fun name =>
          cands.filter (fun c =>
            decide (normalize_heading_key c.name = normalize_heading_key name)))) := by
  by_cases hemp : (effectiveHeadings lines cfg heur headings_found).isEmpty
  · refine ⟨[], [mkNarrativeCandidate lines], ?_, ?_, ?_, ?_, ⟨[], ?_⟩⟩
    · show (extract_sections lines headings_found fmt cfg heur).1
        = [mkNarrativeCandidate lines]
      simp [extract_sections, hemp]
    · intro c hc; cases hc
    · intro c hc
      rcases List.mem_singleton.mp hc with rfl
      rfl
    · intro c hc
      have hthis : (extract_sections lines headings_found fmt cfg heur).1
          = [mkNarrativeCandidate lines] := by simp [extract_sections, hemp]
      rw [hthis] at hc
      rcases List.mem_singleton.mp hc with rfl
      exact Or.inr rfl
    · rw [flatMap_nil_of]
      intro a _
      rfl
  · set cands : List SectionCandidate :=
      (buildCandidates lines (cfg.section_order fmt) (max lines.length 1)
        (if headings_found.isEmpty then (0.6 : ℚ) else 0.85)
        (List.insertionSort headingLe
          (effectiveHeadings lines cfg heur headings_found))).map (·.1) with hcands
    have hnames : ∀ c ∈ cands,
        c.name ∈ cfg.section_order fmt ∨ c.name = str "Narrative" := by
      intro c hc
      rw [hcands, List.mem_map] at hc
      obtain ⟨pb, hpb, rfl⟩ := hc
      exact buildCandidates_name _ _ _ _ _ pb hpb
    have hss : ∀ name ∈ cfg.section_order fmt, ∀ c : SectionCandidate,
        c.name = str "Narrative" →
        normalize_heading_key c.name = normalize_heading_key name → c.name = name := by
      intro name hname c hcn hkey
      simp only [Config.section_order] at hname
      rw [List.mem_map] at hname
      obtain ⟨s, _, rfl⟩ := hname
      rw [hcn]
      exact (sectionName_key_narrative s (by rw [← hkey, hcn])).symm
    refine ⟨(cfg.section_order fmt).flatMap (fun name =>
        cands.filter (fun c =>
          decide (normalize_heading_key c.name = normalize_heading_key name))),
      cands.filter (fun c =>
        decide (normalize_heading_key c.name = normalize_heading_key (str "Narrative"))),
      ?_, ?_, ?_, ?_, ⟨cands, rfl⟩⟩
    · show (extract_sections lines headings_found fmt cfg heur).1 = _
      simp only [extract_sections, hemp, Bool.false_eq_true, if_false]
    · intro c hc
      rw [List.mem_flatMap] at hc
      obtain ⟨name, hname, hc⟩ := hc
      rw [List.mem_filter] at hc
      obtain ⟨hcand, hkey⟩ := hc
      have hkey2 : normalize_heading_key c.name = normalize_heading_key name :=
        of_decide_eq_true hkey
      rcases hnames c hcand with h | h
      · exact h
      · rw [hss name hname c h hkey2]
        exact hname
    · intro c hc
      rw [List.mem_filter] at hc
      obtain ⟨hcand, hkey⟩ := hc
      have hkey2 : normalize_heading_key c.name = normalize_heading_key (str "Narrative") :=
        of_decide_eq_true hkey
      rcases hnames c hcand with h | h
      · simp only [Config.section_order] at h
        rw [List.mem_map] at h
        obtain ⟨s, _, hs⟩ := h
        rw [← hs] at hkey2 ⊢
        exact sectionName_key_narrative s hkey2
      · exact h
    · intro c hc
      have hout : (extract_sections lines headings_found fmt cfg heur).1
          = (cfg.section_order fmt).flatMap (fun name =>
              cands.filter (fun c =>
                decide (normalize_heading_key c.name = normalize_heading_key name))) ++
            cands.filter (fun c =>
              decide (normalize_heading_key c.name
                = normalize_heading_key (str "Narrative"))) := by
        simp only [extract_sections, hemp, Bool.false_eq_true, if_false]
      rw [hout] at hc
      rcases List.mem_append.mp hc with hc | hc
      · rw [List.mem_flatMap] at hc
        obtain ⟨name, hname, hc⟩ := hc
        rw [List.mem_filter] at hc
        exact hnames c hc.1
      · rw [List.mem_filter] at hc
        exact hnames c hc.1

/-! ## Claim C1: span coverage of sectionization -/

/-- Claim-side predicate: candidate `c`'s inclusive line span covers line
`n`. -/
def coverPred (n : Nat) (c : SectionCandidate) : Bool :=
  decide (c.start_line ≤ n) && decide (n ≤ c.end_line)

/-- The line of the first heading in (sorted) heading order; `1` when
there are no headings (the Narrative catch-all starts at line 1). -/
def firstHeadingLine : List HeadingLine → Nat
  | [] => 1
  | h :: _ => h.line_num

theorem collectHeadings_bounds (f : Str → Option (Str × Option Str)) :
    ∀ (i : Nat) (ls : List Str), ∀ h ∈ collectHeadings f i ls,
      i + 1 ≤ h.line_num ∧ h.line_num ≤ i + ls.length := by
  intro i ls
  induction ls generalizing i with
  | nil => intro h hh; cases hh
  | cons l t ih =>
    intro h hh
    cases hf : f l with
    | none =>
      simp only [collectHeadings, hf, List.nil_append] at hh
      have := ih (i + 1) h hh
      simp only [List.length_cons]
      omega
    | some r =>
      simp only [collectHeadings, hf, List.cons_append, List.nil_append] at hh
      rcases List.mem_cons.mp hh with rfl | hh2
      · simp only [List.length_cons]
        omega
      · have := ih (i + 1) h hh2
        simp only [List.length_cons]
        omega

theorem collectHeadings_sorted (f : Str → Option (Str × Option Str)) :
    ∀ (i : Nat) (ls : List Str),
      List.Pairwise (fun a b : HeadingLine => a.line_num < b.line_num)
        (collectHeadings f i ls) := by
  intro i ls
  induction ls generalizing i with
  | nil => exact List.Pairwise.nil
  | cons l t ih =>
    cases hf : f l with
    | none =>
      simp only [collectHeadings, hf, List.nil_append]
      exact ih (i + 1)
    | some r =>
      simp only [collectHeadings, hf, List.cons_append, List.nil_append]
      refine List.Pairwise.cons ?_ (ih (i + 1))
      intro b hb
      have := (collectHeadings_bounds f (i + 1) t b hb).1
      simp only
      omega

theorem buildCandidates_cover (lines : List Str) (order : List Str) (conf : ℚ) (N : Nat) :
    ∀ hs : List HeadingLine,
      List.Pairwise (fun a b : HeadingLine => a.line_num < b.line_num) hs →
      (∀ h ∈ hs, 1 ≤ h.line_num ∧ h.line_num ≤ N) →
      hs ≠ [] →
      ∀ n, ((buildCandidates lines order N conf hs).map (·.1)).countP (coverPred n)
        = if firstHeadingLine hs ≤ n ∧ n ≤ N then 1 else 0 := by
  intro hs
  induction hs with
  | nil => intro _ _ hne; exact absurd rfl hne
  | cons h tl ih =>
    intro hpw hbd _ n
    cases tl with
    | nil =>
      simp only [buildCandidates, List.map_cons, List.map_nil, List.countP_cons,
        List.countP_nil, firstHeadingLine, coverPred]
      by_cases h1 : h.line_num ≤ n <;> by_cases h2 : n ≤ N <;> simp [h1, h2]
    | cons h2 tl2 =>
      have hlt : h.line_num < h2.line_num :=
        (List.pairwise_cons.mp hpw).1 h2 (List.mem_cons_self h2 tl2)
      have hb2 : 1 ≤ h2.line_num ∧ h2.line_num ≤ N :=
        hbd h2 (List.mem_cons_of_mem h (List.mem_cons_self h2 tl2))
      have hrec := ih (List.pairwise_cons.mp hpw).2
        (fun x hx => hbd x (List.mem_cons_of_mem h hx)) (by simp) n
      simp only [buildCandidates, List.map_cons, List.countP_cons] at hrec ⊢
      rw [hrec]
      simp only [firstHeadingLine, coverPred]
      by_cases ha : h.line_num ≤ n <;> by_cases hb : n ≤ h2.line_num - 1 <;>
        by_cases hc : h2.line_num ≤ n <;> by_cases hd : n ≤ N <;>
        simp [ha, hb, hc, hd] <;> omega

theorem countP_flatMap {α β : Type} (l : List α) (f : α → List β) (p : β → Bool) :
    (l.flatMap f).countP p = (l.map (fun a => (f a).countP p)).sum := by
  induction l with
  | nil => rfl
  | cons a t ih =>
    rw [List.flatMap_cons, List.countP_append, ih, List.map_cons, List.sum_cons]

theorem countP_filter' {α : Type} (l : List α) (p q : α → Bool) :
    (l.filter q).countP p = l.countP (fun a => p a && q a) := by
  induction l with
  | nil => rfl
  | cons a t ih =>
    rw [List.filter_cons, List.countP_cons]
    by_cases hq : q a
    · rw [if_pos hq, List.countP_cons, ih, hq]
      simp
    · rw [if_neg hq, ih]
      have : (p a && q a) = false := by
        rw [Bool.eq_false_iff.mpr hq, Bool.and_false]
      rw [this]
      simp

theorem sum_map_add {α : Type} (l : List α) (f g : α → Nat) :
    (l.map (fun a => f a + g a)).sum = (l.map f).sum + (l.map g).sum := by
  induction l with
  | nil => rfl
  | cons a t ih =>
    simp only [List.map_cons, List.sum_cons, ih]
    omega

theorem sum_map_ite_one {α : Type} (l : List α) (q : α → Bool) :
    (l.map (fun a => if q a then 1 else 0)).sum = l.countP q := by
  induction l with
  | nil => rfl
  | cons a t ih =>
    simp only [List.map_cons, List.sum_cons, List.countP_cons, ih]
    by_cases hq : q a <;> simp [hq] <;> omega

theorem sum_map_ite_and {α : Type} (l : List α) (b : Bool) (q : α → Bool) :
    (l.map (fun a => if b && q a then 1 else 0)).sum = if b then l.countP q else 0 := by
  cases b with
  | false =>
    simp only [Bool.false_and, Bool.false_eq_true, if_false]
    induction l with
    | nil => rfl
    | cons a t ih => simpa using ih
  | true =>
    simp only [Bool.true_and, if_true]
    exact sum_map_ite_one l q

theorem sum_map_zero {α : Type} (l : List α) :
    (l.map fun _ => (0 : Nat)).sum = 0 := by
  induction l with
  | nil => rfl
  | cons a t ih => simpa using ih

/-- Counting through the template-ordered regrouping performed by
`extract_sections`: when every candidate falls in exactly one bucket (one
section-order name with a matching key, or else the Narrative catch-all
bucket), the regrouped list has the same `countP` as the candidate list. -/
theorem countP_ordered (order : List Str) (p : SectionCandidate → Bool) :
    ∀ cands : List SectionCandidate,
      (∀ c ∈ cands,
        (order.countP (fun nm =>
          decide (normalize_heading_key c.name = normalize_heading_key nm))) +
        (if normalize_heading_key c.name = normalize_heading_key (str "Narrative")
        then 1 else 0) = 1) →
      ((order.flatMap fun name => cands.filter (fun c =>
          decide (normalize_heading_key c.name = normalize_heading_key name))) ++
        cands.filter (fun c =>
          decide (normalize_heading_key c.name
            = normalize_heading_key (str "Narrative")))).countP p
        = cands.countP p := by
  intro cands
  induction cands with
  | nil =>
    intro _
    simp only [List.filter_nil, List.countP_append, countP_flatMap, List.countP_nil]
    rw [sum_map_zero]
  | cons c cs ih =>
    intro hmult
    have hmc := hmult c (List.mem_cons_self c cs)
    have hms : ∀ x ∈ cs, (order.countP (fun nm =>
        decide (normalize_heading_key x.name = normalize_heading_key nm))) +
        (if normalize_heading_key x.name = normalize_heading_key (str "Narrative")
        then 1 else 0) = 1 :=
      fun x hx => hmult x (List.mem_cons_of_mem c hx)
    have ihs := ih hms
    rw [List.countP_append, countP_flatMap] at ihs ⊢
    have hmap : (order.map (fun name =>
        ((c :: cs).filter (fun x =>
          decide (normalize_heading_key x.name = normalize_heading_key name))).countP p)).sum
        = (order.map (fun name =>
            (cs.filter (fun x =>
              decide (normalize_heading_key x.name = normalize_heading_key name))).countP p)).sum
          + (if p c then (order.countP (fun nm =>
              decide (normalize_heading_key c.name = normalize_heading_key nm))) else 0) := by
      rw [← sum_map_ite_and order (p c)]
      rw [← sum_map_add]
      congr 1
      apply List.map_congr_left
      intro name _
      rw [countP_filter', List.countP_cons, countP_filter']
    have hnarr : ((c :: cs).filter (fun x =>
        decide (normalize_heading_key x.name
          = normalize_heading_key (str "Narrative")))).countP p
        = (cs.filter (fun x =>
            decide (normalize_heading_key x.name
              = normalize_heading_key (str "Narrative")))).countP p
          + (if p c = true ∧ normalize_heading_key c.name
              = normalize_heading_key (str "Narrative") then 1 else 0) := by
      rw [countP_filter', List.countP_cons, countP_filter']
      by_cases hk : (normalize_heading_key c.name
          = normalize_heading_key (str "Narrative"))
      · by_cases hp : p c <;> simp [hk, hp]
      · simp [hk]
    rw [hmap, hnarr, List.countP_cons]
    by_cases hk : (normalize_heading_key c.name
        = normalize_heading_key (str "Narrative"))
    · rw [if_pos hk] at hmc
      by_cases hp : p c = true
      · rw [if_pos hp, if_pos hp, if_pos (And.intro hp hk)]
        omega
      · rw [if_neg hp, if_neg hp, if_neg (fun q => hp q.1)]
        omega
    · rw [if_neg hk] at hmc
      by_cases hp : p c = true
      · rw [if_pos hp, if_pos hp, if_neg (fun q => hk q.2)]
        omega
      · rw [if_neg hp, if_neg hp, if_neg (fun q => hp q.1)]
        omega

theorem section_order_default (cfg : Config) (fmt : NoteFormat)
    (hfmt : cfg.formats = FormatsConfig.default) :
    cfg.section_order fmt = Config.default.section_order fmt := by
  unfold Config.section_order
  rw [hfmt]
  cases fmt <;> rfl

/-- In each default template order, every order name's normalized key occurs
exactly once in the order, and none of them has the key `NARRATIVE`. -/
theorem default_order_mult (fmt : NoteFormat) :
    ∀ nm0 ∈ Config.default.section_order fmt,
      ((Config.default.section_order fmt).countP (fun nm =>
        decide (normalize_heading_key nm0 = normalize_heading_key nm))) +
      (if normalize_heading_key nm0 = normalize_heading_key (str "Narrative")
       then 1 else 0) = 1 := by
  cases fmt <;> decide

theorem default_order_narr (fmt : NoteFormat) :
    ((Config.default.section_order fmt).countP (fun nm =>
      decide (normalize_heading_key (str "Narrative") = normalize_heading_key nm))) +
    (if normalize_heading_key (str "Narrative") = normalize_heading_key (str "Narrative")
     then 1 else 0) = 1 := by
  cases fmt <;> decide

theorem effectiveHeadings_cases (lines : List Str) (cfg : Config) (heur : Bool)
    (hf : List HeadingLine) :
    effectiveHeadings lines cfg heur hf = hf ∨
    effectiveHeadings lines cfg heur hf = fallback_headings lines cfg ∨
    effectiveHeadings lines cfg heur hf = [] := by
  unfold effectiveHeadings
  by_cases he : hf.isEmpty <;> by_cases hh : heur <;> simp [he, hh]

theorem effectiveHeadings_sorted (lines : List Str) (cfg : Config) (heur : Bool) :
    List.Pairwise (fun a b : HeadingLine => a.line_num < b.line_num)
      (effectiveHeadings lines cfg heur (scan_headings lines cfg)) := by
  rcases effectiveHeadings_cases lines cfg heur (scan_headings lines cfg) with h | h | h <;>
    rw [h]
  · exact collectHeadings_sorted (fun l => detect_heading l cfg) 0 lines
  · exact collectHeadings_sorted (fun l =>
      (fallbackMatch (trim l)).bind fun hr =>
        (canonicalize_heading hr.1 cfg).map fun mapped => (mapped, some (trim hr.2))) 0 lines
  · exact List.Pairwise.nil

theorem effectiveHeadings_bounds (lines : List Str) (cfg : Config) (heur : Bool) :
    ∀ h ∈ effectiveHeadings lines cfg heur (scan_headings lines cfg),
      1 ≤ h.line_num ∧ h.line_num ≤ max lines.length 1 := by
  have hm : lines.length ≤ max lines.length 1 := Nat.le_max_left _ _
  rcases effectiveHeadings_cases lines cfg heur (scan_headings lines cfg) with h | h | h <;>
    rw [h]
  · intro x hx
    have hb := collectHeadings_bounds (fun l => detect_heading l cfg) 0 lines x hx
    omega
  · intro x hx
    have hb := collectHeadings_bounds (fun l =>
      (fallbackMatch (trim l)).bind fun hr =>
        (canonicalize_heading hr.1 cfg).map fun mapped => (mapped, some (trim hr.2))) 0 lines x hx
    omega
  · intro x hx
    cases hx

/-- Claim C1: span coverage of `extract_sections` under any configuration
with the built-in template orders.  Every source line from the first
detected (or fallback) heading through the document end lies in exactly
one candidate span, and every earlier line — blank or not — lies in no
span at all; with no headings the single Narrative candidate covers lines
`1..max(#lines,1)` exactly once.  The claim's \"covers every non-blank
source line\" therefore fails for non-blank preamble lines before the
first heading (see the counterexample). -/
theorem C1_sectionize_coverage (lines : List Str) (fmt : NoteFormat) (cfg : Config)
    (heur : Bool) (n : Nat) (hfmt : cfg.formats = FormatsConfig.default) :
    (extract_sections lines (scan_headings lines cfg) fmt cfg heur).1.countP (coverPred n)
      = if firstHeadingLine (effectiveHeadings lines cfg heur (scan_headings lines cfg)) ≤ n
          ∧ n ≤ max lines.length 1 then 1 else 0 := by
  have horder := section_order_default cfg fmt hfmt
  have hpw := effectiveHeadings_sorted lines cfg heur
  have hbd := effectiveHeadings_bounds lines cfg heur
  by_cases hemp : (effectiveHeadings lines cfg heur (scan_headings lines cfg)).isEmpty = true
  · have hnil : effectiveHeadings lines cfg heur (scan_headings lines cfg) = [] :=
      List.isEmpty_iff.mp hemp
    simp only [extract_sections, hnil, List.isEmpty_nil, if_true, firstHeadingLine,
      List.countP_cons, List.countP_nil, mkNarrativeCandidate, coverPred]
    by_cases h1 : 1 ≤ n <;> by_cases h2 : n ≤ max lines.length 1 <;> simp [h1, h2]
  · have hempf : (effectiveHeadings lines cfg heur (scan_headings lines cfg)).isEmpty = false :=
      Bool.eq_false_iff.mpr hemp
    have hne : effectiveHeadings lines cfg heur (scan_headings lines cfg) ≠ [] := by
      intro h0
      rw [h0] at hemp
      exact hemp rfl
    have hss : List.insertionSort headingLe
        (effectiveHeadings lines cfg heur (scan_headings lines cfg))
        = effectiveHeadings lines cfg heur (scan_headings lines cfg) :=
      List.Sorted.insertionSort_eq (List.Pairwise.imp (fun hab => Nat.le_of_lt hab) hpw)
    have hmult : ∀ conf : ℚ, ∀ c ∈ (buildCandidates lines (cfg.section_order fmt)
        (max lines.length 1) conf
        (effectiveHeadings lines cfg heur (scan_headings lines cfg))).map (·.1),
        ((cfg.section_order fmt).countP (fun nm =>
          decide (normalize_heading_key c.name = normalize_heading_key nm))) +
        (if normalize_heading_key c.name = normalize_heading_key (str "Narrative")
         then 1 else 0) = 1 := by
      intro conf c hc
      rcases List.mem_map.mp hc with ⟨pb, hpb, rfl⟩
      rcases buildCandidates_name lines (cfg.section_order fmt) (max lines.length 1) conf
          (effectiveHeadings lines cfg heur (scan_headings lines cfg)) pb hpb with hin | hnarr
      · rw [horder] at hin ⊢
        exact default_order_mult fmt pb.1.name hin
      · rw [hnarr, horder]
        exact default_order_narr fmt
    simp only [extract_sections, hempf, Bool.false_eq_true, if_false]
    rw [hss]
    rw [countP_ordered (cfg.section_order fmt) (coverPred n) _ (hmult _)]
    rw [buildCandidates_cover lines (cfg.section_order fmt) _ (max lines.length 1)
      (effectiveHeadings lines cfg heur (scan_headings lines cfg)) hpw hbd hne n]

/-- Counterexample to C1's \"covers every non-blank source line\": in the
note `intro\nPLAN:\ndo things`, line 1 (`intro`) is non-blank, yet no
candidate span of `extract_sections` under the default SOAP template
contains it — sectionization starts at the first detected heading
(line 2), leaving the preamble uncovered. -/
theorem C1_counterexample :
    trim (str "intro") ≠ [] ∧
    ((extract_sections [str "intro", str "PLAN:", str "do things"]
        (scan_headings [str "intro", str "PLAN:", str "do things"] Config.default)
        .soap Config.default true).1.countP (coverPred 1)) = 0 := by
  constructor
  · decide
  · decide

theorem C1_sectionize_coverage_witness :
    (extract_sections [str "intro", str "PLAN:", str "do things"]
        (scan_headings [str "intro", str "PLAN:", str "do things"] Config.default)
        .soap Config.default true).1.countP (coverPred 2)
      = if firstHeadingLine (effectiveHeadings [str "intro", str "PLAN:", str "do things"]
            Config.default true
            (scan_headings [str "intro", str "PLAN:", str "do things"] Config.default)) ≤ 2
          ∧ 2 ≤ max ([str "intro", str "PLAN:", str "do things"].length) 1
        then 1 else 0 :=
  C1_sectionize_coverage [str "intro", str "PLAN:", str "do things"] .soap Config.default
    true 2 rfl
